import Mathlib

/-!
Shallow embedding of the single-instrument limit order book engine
(`orderbook_v0.2.cpp`) together with proofs checking the natural-language
specification against it.

Modelling conventions:
* `Price` (`int32_t`) is modelled as `Int`; the code only ever compares and
  copies prices, it never does arithmetic on them, so no wrap-around can occur.
* `Quantity` (`uint32_t`) and `OrderId` (`uint64_t`) are modelled as `Nat`;
  the only subtraction on an order's remaining quantity is guarded by the
  `Fill` check, so it never wraps.
* The level aggregate `data_` stores `uint32_t` counts and `uint64_t`
  quantities whose decrements are *not* guarded in the C++ code, so those
  are modelled with explicit wrap-around (`% 2^32`, `% 2^64`).
* `std::map` / `std::unordered_map` / `std::list` are modelled as association
  lists / lists; `bids_` is kept in descending price order and `asks_` in
  ascending price order, matching the maps' comparators and iteration order.
* `Order::Fill` throws `std::logic_error` when asked to fill more than the
  remaining quantity; this is modelled by `Order.Fill` returning `none`, and
  a `panicked` flag is threaded through the matching loop recording that the
  exception propagated (provably it never does).
* The matching loop's outer `while` is modelled with explicit fuel
  (`MatchOuter`); `bids_.length + asks_.length + 1` steps always suffice
  because every productive iteration removes at least one price level.
  The inner `while` (`MatchInner`) is total: every iteration pops at least
  one of the two head orders.
* The background `GoodForDay` pruning thread's timing is out of scope; the
  sweep itself (collect `GoodForDay` ids, cancel each) is modelled by
  `PruneGoodForDayOrders`.
-/

namespace OBook

set_option maxRecDepth 4000

inductive Side where
  | Buy
  | Sell
deriving DecidableEq, Repr

inductive OrderType where
  | GoodTillCancel
  | FillAndKill
  | FillOrKill
  | GoodForDay
  | Market
deriving DecidableEq, Repr

/-- `struct Order` (the unused timestamp field is dropped: it is written by
the constructor and never read anywhere in the translation unit). -/
structure Order where
  type : OrderType
  id : Nat
  side : Side
  price : Int
  initialQuantity : Nat
  remainingQuantity : Nat
deriving DecidableEq, Repr

/-- The `Order` constructor: `remainingQuantity` starts equal to
`initialQuantity` (timestamp parameter dropped, see above). -/
def Order.make (t : OrderType) (id : Nat) (s : Side) (p : Int)
    (q : Nat) : Order :=
  ⟨t, id, s, p, q, q⟩

/-- `Order::IsFilled`. -/
def Order.IsFilled (o : Order) : Bool :=
  o.remainingQuantity == 0

/-- `Order::Fill`: `none` models the thrown `std::logic_error` when `q`
exceeds the remaining quantity. -/
def Order.Fill (o : Order) (q : Nat) : Option Order :=
  if q > o.remainingQuantity then none
  else some { o with remainingQuantity := o.remainingQuantity - q }

/-- `Order::ToGoodTillCancel`: converts a market order into a price-capped
limit order; any other type is left untouched. -/
def Order.ToGoodTillCancel (o : Order) (worstPrice : Int) : Order :=
  if o.type = OrderType.Market then
    { o with type := OrderType.GoodTillCancel, price := worstPrice }
  else o

/-- `struct OrderModify`. -/
structure OrderModify where
  orderId : Nat
  side : Side
  price : Int
  quantity : Nat
deriving DecidableEq, Repr

/-- `OrderModify::ToOrderPointer`: produce a new `Order` preserving the
type. -/
def OrderModify.ToOrderPointer (m : OrderModify) (t : OrderType) : Order :=
  Order.make t m.orderId m.side m.price m.quantity

/-- `struct TradeInfo`. -/
structure TradeInfo where
  orderId : Nat
  price : Int
  quantity : Nat
deriving DecidableEq, Repr

/-- `struct Trade`. -/
structure Trade where
  bid : TradeInfo
  ask : TradeInfo
deriving DecidableEq, Repr

/-- `struct LevelData` (`uint32_t count; uint64_t quantity`). -/
structure LevelData where
  count : Nat
  quantity : Nat
deriving DecidableEq, Repr

abbrev Level := List Order
abbrev OrdersEntry := Side × Int × OrderType
abbrev OrdersMap := List (Nat × OrdersEntry)
abbrev DataMap := List (Int × LevelData)

/-- Wrapping subtraction of `uint32_t` values. -/
def wsub32 (a b : Nat) : Nat :=
  (a + (2 ^ 32 - b % 2 ^ 32)) % 2 ^ 32

/-- Wrapping subtraction of `uint64_t` values. -/
def wsub64 (a b : Nat) : Nat :=
  (a + (2 ^ 64 - b % 2 ^ 64)) % 2 ^ 64

/-- Key lookup in an association list keyed by price (`std::map::find`). -/
def mapFind {α : Type} (m : List (Int × α)) (p : Int) : Option α :=
  (m.find? (fun e => e.1 == p)).map (·.2)

/-- Replace the value stored at key `p`, or append it if absent
(`std::map::operator[]` followed by assignment; keys are unique). -/
def mapSet {α : Type} (p : Int) (x : α) : List (Int × α) → List (Int × α)
  | [] => [(p, x)]
  | (q, y) :: rest => if q == p then (q, x) :: rest else (q, y) :: mapSet p x rest

/-- Remove the entry at key `p` (`std::map::erase(key)`; keys are unique). -/
def mapErase {α : Type} (p : Int) : List (Int × α) → List (Int × α)
  | [] => []
  | (q, y) :: rest => if q == p then rest else (q, y) :: mapErase p rest

/-- `bids_[price].push_back(order)`: `bids_` iterates in descending price
order (`std::greater`), so a fresh level is inserted at its sorted position
and an existing level gets the order appended at the back of its queue. -/
def addLevelDesc (p : Int) (o : Order) : List (Int × Level) → List (Int × Level)
  | [] => [(p, [o])]
  | (q, lvl) :: rest =>
    if p > q then (p, [o]) :: (q, lvl) :: rest
    else if p == q then (q, lvl ++ [o]) :: rest
    else (q, lvl) :: addLevelDesc p o rest

/-- `asks_[price].push_back(order)`: ascending price order (`std::less`). -/
def addLevelAsc (p : Int) (o : Order) : List (Int × Level) → List (Int × Level)
  | [] => [(p, [o])]
  | (q, lvl) :: rest =>
    if p < q then (p, [o]) :: (q, lvl) :: rest
    else if p == q then (q, lvl ++ [o]) :: rest
    else (q, lvl) :: addLevelAsc p o rest

/-- `orders_.contains(id)`. -/
def ordersContains (os : OrdersMap) (id : Nat) : Bool :=
  os.any (fun e => e.1 == id)

/-- `orders_.at(id)` / `orders_.find(id)`. -/
def ordersFind (os : OrdersMap) (id : Nat) : Option OrdersEntry :=
  (os.find? (fun e => e.1 == id)).map (·.2)

/-- `orders_.erase(id)` (keys are unique in an `unordered_map`). -/
def ordersErase (id : Nat) (os : OrdersMap) : OrdersMap :=
  os.eraseP (fun e => e.1 == id)

/-- `class OrderBook`: the four cross-referenced containers.  The
`OrderEntry` stored per id keeps the order's immutable attributes (side,
price, type), which is what the stored `shared_ptr`/iterator pair is used
for; the mutable remaining quantity lives in the price queues. -/
structure OrderBook where
  bids : List (Int × Level)
  asks : List (Int × Level)
  orders : OrdersMap
  data : DataMap
deriving DecidableEq, Repr

/-- `OrderBook::OnOrderAdded`: `data_[price]` default-constructs the entry
when absent, then `count++` and `quantity += initialQuantity`. -/
def OnOrderAdded (price : Int) (initQ : Nat) (d : DataMap) : DataMap :=
  let ld := (mapFind d price).getD ⟨0, 0⟩
  mapSet price ⟨(ld.count + 1) % 2 ^ 32, (ld.quantity + initQ) % 2 ^ 64⟩ d

/-- `OrderBook::OnOrderCancelled`: decrement count, subtract the remaining
quantity, erase the entry when the count reaches zero. -/
def OnOrderCancelled (price : Int) (remQ : Nat) (d : DataMap) : DataMap :=
  match mapFind d price with
  | none => d
  | some ld =>
    let c := wsub32 ld.count 1
    let q := wsub64 ld.quantity remQ
    if c == 0 then mapErase price d else mapSet price ⟨c, q⟩ d

/-- `OrderBook::OnOrderMatched`: decrement the count only on a full fill,
always subtract the matched quantity, erase when the count reaches zero. -/
def OnOrderMatched (price : Int) (qty : Nat) (full : Bool) (d : DataMap) : DataMap :=
  match mapFind d price with
  | none => d
  | some ld =>
    let c := if full then wsub32 ld.count 1 else ld.count
    let q := wsub64 ld.quantity qty
    if c == 0 then mapErase price d else mapSet price ⟨c, q⟩ d

/-- `OrderBook::CanMatch`. -/
def OrderBook.CanMatch (b : OrderBook) (side : Side) (price : Int) : Bool :=
  match side with
  | Side.Buy =>
    match b.asks with
    | [] => false
    | (bestAsk, _) :: _ => decide (price ≥ bestAsk)
  | Side.Sell =>
    match b.bids with
    | [] => false
    | (bestBid, _) :: _ => decide (price ≤ bestBid)

/-- The ask-side walk of `OrderBook::CanFullyFill` for a buy order:
levels are visited in ascending price order, the walk breaks at the first
level above the incoming price, and availability is read from the `data_`
aggregate, not from the queues. -/
def fullFillWalkAsks (price : Int) (d : DataMap) :
    List (Int × Level) → Nat → Bool
  | [], _ => false
  | (p, _) :: rest, remaining =>
    if p > price then false
    else
      let avail := ((mapFind d p).map (·.quantity)).getD 0
      if avail ≥ remaining then true
      else
        let remaining' := if avail > 0 then remaining - min avail remaining else remaining
        if remaining' == 0 then true else fullFillWalkAsks price d rest remaining'

/-- The bid-side walk of `OrderBook::CanFullyFill` for a sell order. -/
def fullFillWalkBids (price : Int) (d : DataMap) :
    List (Int × Level) → Nat → Bool
  | [], _ => false
  | (p, _) :: rest, remaining =>
    if p < price then false
    else
      let avail := ((mapFind d p).map (·.quantity)).getD 0
      if avail ≥ remaining then true
      else
        let remaining' := if avail > 0 then remaining - min avail remaining else remaining
        if remaining' == 0 then true else fullFillWalkBids price d rest remaining'

/-- `OrderBook::CanFullyFill`. -/
def OrderBook.CanFullyFill (b : OrderBook) (side : Side) (price : Int)
    (qty : Nat) : Bool :=
  if !(b.CanMatch side price) then false
  else
    match side with
    | Side.Buy => fullFillWalkAsks price b.data b.asks qty
    | Side.Sell => fullFillWalkBids price b.data b.bids qty

/-- Result of the inner matching loop over the two best price queues.
`panicked` records that `Order::Fill` threw. -/
structure InnerResult where
  bidQ : Level
  askQ : Level
  orders : OrdersMap
  data : DataMap
  trades : List Trade
  panicked : Bool
deriving DecidableEq, Repr

/-- The inner `while(!bids.empty() && !asks.empty())` loop of
`OrderBook::MatchOrders` with explicit fuel (structural recursion so that
concrete states evaluate).  Each iteration fills the two head orders by the
minimum of their remaining quantities, emits one trade priced at `askPrice`
on both legs, updates the aggregate, and pops every fully filled head.
The fuel-exhaustion branch is unreachable from the `MatchInner` wrapper:
every iteration removes at least one order from the two queues. -/
def MatchInnerF (bp ap : Int) : Nat → Level → Level → OrdersMap → DataMap → InnerResult
  | _, [], aq, os, d => ⟨[], aq, os, d, [], false⟩
  | _, bq, [], os, d => ⟨bq, [], os, d, [], false⟩
  | 0, bid :: bq', ask :: aq', os, d => ⟨bid :: bq', ask :: aq', os, d, [], false⟩
  | fuel + 1, bid :: bq', ask :: aq', os, d =>
    let qty := min bid.remainingQuantity ask.remainingQuantity
    match bid.Fill qty with
    | none => ⟨bid :: bq', ask :: aq', os, d, [], true⟩
    | some bid' =>
      match ask.Fill qty with
      | none => ⟨bid' :: bq', ask :: aq', os, d, [], true⟩
      | some ask' =>
        let tr : Trade := ⟨⟨bid.id, ap, qty⟩, ⟨ask.id, ap, qty⟩⟩
        let d1 := OnOrderMatched bp qty bid'.IsFilled d
        let d2 := OnOrderMatched ap qty ask'.IsFilled d1
        let os1 := if bid'.IsFilled then ordersErase bid.id os else os
        let os2 := if ask'.IsFilled then ordersErase ask.id os1 else os1
        let r := MatchInnerF bp ap fuel
          (if bid'.IsFilled then bq' else bid' :: bq')
          (if ask'.IsFilled then aq' else ask' :: aq') os2 d2
        ⟨r.bidQ, r.askQ, r.orders, r.data, tr :: r.trades, r.panicked⟩

/-- The inner matching loop: `bq.length + aq.length` fuel always suffices. -/
def MatchInner (bp ap : Int) (bq aq : Level) (os : OrdersMap) (d : DataMap) :
    InnerResult :=
  MatchInnerF bp ap (bq.length + aq.length) bq aq os d

/-- Result of a complete book operation: the emitted trades, the new book
state, and whether `Order::Fill` threw along the way. -/
structure AddResult where
  trades : List Trade
  book : OrderBook
  panicked : Bool
deriving DecidableEq, Repr

/-- The outer `while(!bids_.empty() && !asks_.empty())` loop of
`OrderBook::MatchOrders`, with explicit fuel.  Each productive iteration
breaks on an uncrossed book or runs the inner loop at the best prices and
then erases every price level whose queue emptied, together with its
`data_` entry. -/
def MatchOuter : Nat → OrderBook → AddResult
  | 0, b => ⟨[], b, false⟩
  | fuel + 1, b =>
    match b.bids, b.asks with
    | [], _ => ⟨[], b, false⟩
    | _ :: _, [] => ⟨[], b, false⟩
    | (bidPrice, bq) :: bidsRest, (askPrice, aq) :: asksRest =>
      if bidPrice < askPrice then ⟨[], b, false⟩
      else
        let r := MatchInner bidPrice askPrice bq aq b.orders b.data
        if r.panicked then
          ⟨r.trades, ⟨(bidPrice, r.bidQ) :: bidsRest, (askPrice, r.askQ) :: asksRest,
            r.orders, r.data⟩, true⟩
        else
          let bids' := if r.bidQ.isEmpty then bidsRest else (bidPrice, r.bidQ) :: bidsRest
          let d1 := if r.bidQ.isEmpty then mapErase bidPrice r.data else r.data
          let asks' := if r.askQ.isEmpty then asksRest else (askPrice, r.askQ) :: asksRest
          let d2 := if r.askQ.isEmpty then mapErase askPrice d1 else d1
          let next := MatchOuter fuel ⟨bids', asks', r.orders, d2⟩
          ⟨r.trades ++ next.trades, next.book, next.panicked⟩

/-- `OrderBook::CancelOrderInternal`: no-op on an unknown id, otherwise
erase the id-lookup entry, unlink the order from its price queue (dropping
the level if it empties), and update the aggregate with the order's
remaining quantity.  The `none` level branch models the (unreachable on
consistent books) `std::map::at` exception. -/
def OrderBook.CancelOrderInternal (b : OrderBook) (id : Nat) : OrderBook :=
  match ordersFind b.orders id with
  | none => b
  | some entry =>
    let os := ordersErase id b.orders
    match entry.1 with
    | Side.Sell =>
      match mapFind b.asks entry.2.1 with
      | none => ⟨b.bids, b.asks, os, b.data⟩
      | some lvl =>
        let remQ := ((lvl.find? (fun o => o.id == id)).map (·.remainingQuantity)).getD 0
        let lvl' := lvl.eraseP (fun o => o.id == id)
        let asks' := if lvl'.isEmpty then mapErase entry.2.1 b.asks
          else mapSet entry.2.1 lvl' b.asks
        ⟨b.bids, asks', os, OnOrderCancelled entry.2.1 remQ b.data⟩
    | Side.Buy =>
      match mapFind b.bids entry.2.1 with
      | none => ⟨b.bids, b.asks, os, b.data⟩
      | some lvl =>
        let remQ := ((lvl.find? (fun o => o.id == id)).map (·.remainingQuantity)).getD 0
        let lvl' := lvl.eraseP (fun o => o.id == id)
        let bids' := if lvl'.isEmpty then mapErase entry.2.1 b.bids
          else mapSet entry.2.1 lvl' b.bids
        ⟨bids', b.asks, os, OnOrderCancelled entry.2.1 remQ b.data⟩

/-- Line 260–261 of `OrderBook::MatchOrders`: cancel a `FillAndKill` order
left at the head of the best bid queue. -/
def CancelFakHeadBids (b : OrderBook) : OrderBook :=
  match b.bids with
  | (_, o :: _) :: _ =>
    if o.type == OrderType.FillAndKill then b.CancelOrderInternal o.id else b
  | _ => b

/-- Line 262–263 of `OrderBook::MatchOrders`: cancel a `FillAndKill` order
left at the head of the best ask queue. -/
def CancelFakHeadAsks (b : OrderBook) : OrderBook :=
  match b.asks with
  | (_, o :: _) :: _ =>
    if o.type == OrderType.FillAndKill then b.CancelOrderInternal o.id else b
  | _ => b

/-- Lines 260–263 of `OrderBook::MatchOrders`: the post-loop `FillAndKill`
head cleanup, bid side first. -/
def FakCleanup (b : OrderBook) : OrderBook :=
  CancelFakHeadAsks (CancelFakHeadBids b)

/-- `OrderBook::MatchOrders`: run the crossing loop (with always-sufficient
fuel), then the `FillAndKill` head cleanup; a `Fill` exception propagates
before the cleanup runs. -/
def OrderBook.MatchOrders (b : OrderBook) : AddResult :=
  let res := MatchOuter (b.bids.length + b.asks.length + 1) b
  if res.panicked then res
  else ⟨res.trades, FakCleanup res.book, false⟩

/-- Lines 132–153 of `OrderBook::AddOrder`: the `FillAndKill` / `FillOrKill`
pre-checks, insertion into the book index and the id lookup, the aggregate
update, and the crossing loop. -/
def OrderBook.InsertAndMatch (b : OrderBook) (order : Order) : AddResult :=
  if order.type == OrderType.FillAndKill && !(b.CanMatch order.side order.price) then
    ⟨[], b, false⟩
  else if order.type == OrderType.FillOrKill &&
      !(b.CanFullyFill order.side order.price order.initialQuantity) then
    ⟨[], b, false⟩
  else
    let bids' := if order.side == Side.Buy then addLevelDesc order.price order b.bids else b.bids
    let asks' := if order.side == Side.Sell then addLevelAsc order.price order b.asks else b.asks
    let os' := b.orders ++ [(order.id, (order.side, order.price, order.type))]
    let d' := OnOrderAdded order.price order.initialQuantity b.data
    OrderBook.MatchOrders ⟨bids', asks', os', d'⟩

/-- The market-order conversion step of `OrderBook::AddOrder`:
a market buy is capped at the worst (highest, `asks_.rbegin()`) ask price,
a market sell at the worst (lowest, `bids_.rbegin()`) bid price; `none`
models the `return {}` when the opposite side is empty. -/
def OrderBook.ConvertMarket (b : OrderBook) (order : Order) : Option Order :=
  if order.type == OrderType.Market then
    if order.side == Side.Buy then
      match b.asks.getLast? with
      | some (p, _) => some (order.ToGoodTillCancel p)
      | none => none
    else
      match b.bids.getLast? with
      | some (p, _) => some (order.ToGoodTillCancel p)
      | none => none
  else some order

/-- `OrderBook::AddOrder`. -/
def OrderBook.AddOrder (b : OrderBook) (order : Order) : AddResult :=
  if ordersContains b.orders order.id then ⟨[], b, false⟩
  else
    match b.ConvertMarket order with
    | none => ⟨[], b, false⟩
    | some order' => b.InsertAndMatch order'

/-- `OrderBook::CancelOrder` (the mutex is concurrency-only). -/
def OrderBook.CancelOrder (b : OrderBook) (id : Nat) : OrderBook :=
  b.CancelOrderInternal id

/-- `OrderBook::ModifyOrder`: read the existing order's type, cancel it,
re-add a fresh order built from the modify request with that type. -/
def OrderBook.ModifyOrder (b : OrderBook) (m : OrderModify) : AddResult :=
  match ordersFind b.orders m.orderId with
  | none => ⟨[], b, false⟩
  | some entry =>
    let b' := b.CancelOrder m.orderId
    b'.AddOrder (m.ToOrderPointer entry.2.2)

/-- The `uint64_t` accumulation `qty += o->GetRemainingNat()` used by
the level snapshots. -/
def levelQty (lvl : Level) : Nat :=
  lvl.foldl (fun acc o => (acc + o.remainingQuantity) % 2 ^ 64) 0

/-- `OrderBook::GetBidLevels`: walks the first `depth` bid levels and sums
the remaining quantities of the orders in each queue. -/
def OrderBook.GetBidLevels (b : OrderBook) (depth : Nat) : List (Int × Nat) :=
  (b.bids.take depth).map (fun pl => (pl.1, levelQty pl.2))

/-- `OrderBook::GetAskLevels`. -/
def OrderBook.GetAskLevels (b : OrderBook) (depth : Nat) : List (Int × Nat) :=
  (b.asks.take depth).map (fun pl => (pl.1, levelQty pl.2))

/-- `OrderBook::Size`. -/
def OrderBook.Size (b : OrderBook) : Nat :=
  b.orders.length

/-- The sweep body of `OrderBook::PruneGoodForDayOrders` (one cutoff wake):
collect the ids of all live `GoodForDay` orders, then cancel each via
`CancelOrderInternal`.  The scheduling and locking are concurrency-only. -/
def OrderBook.PruneGoodForDayOrders (b : OrderBook) : OrderBook :=
  let toCancel := (b.orders.filter (fun e => e.2.2.2 == OrderType.GoodForDay)).map (·.1)
  toCancel.foldl (fun bk id => bk.CancelOrderInternal id) b

/-- The empty book. -/
def emptyBook : OrderBook := ⟨[], [], [], []⟩

/-- Modelled from the spec: `GetLevels(depth)` "computed from the level
aggregate, not by re-walking order queues" — the per-level quantity read
from the `data_` entry at that price.  This is the refinement counterpart
the claim asserts `GetBidLevels` implements. -/
def OrderBook.GetBidLevelsFromAggregate (b : OrderBook) (depth : Nat) :
    List (Int × Nat) :=
  (b.bids.take depth).map (fun pl => (pl.1, ((mapFind b.data pl.1).getD ⟨0, 0⟩).quantity))

/-- Modelled from the spec: ask-side counterpart of
`GetBidLevelsFromAggregate`. -/
def OrderBook.GetAskLevelsFromAggregate (b : OrderBook) (depth : Nat) :
    List (Int × Nat) :=
  (b.asks.take depth).map (fun pl => (pl.1, ((mapFind b.data pl.1).getD ⟨0, 0⟩).quantity))

/-- All orders resting on one side of the book, best level first, queue
order within a level. -/
def ordersOf (m : List (Int × Level)) : List Order :=
  (m.map (·.2)).flatten

/-- The ids of all orders resting on one side. -/
def idsOf (m : List (Int × Level)) : List Nat :=
  (ordersOf m).map (·.id)

/-- Total remaining quantity resting on one side. -/
def totalRemaining (m : List (Int × Level)) : Nat :=
  ((ordersOf m).map (·.remainingQuantity)).sum

/-- Number of id-lookup entries stored under a given id. -/
def keyCount (os : OrdersMap) (id : Nat) : Nat :=
  os.countP (fun e => e.1 == id)

/-- Time-priority consumption of one price queue, as `(order id, filled
quantity)` events: every event hits the current head order, and the head
advances exactly when its remaining quantity is exhausted, so a later order
never fills while an earlier order still has remaining quantity.  `out` is
the queue left over. -/
inductive FrontConsume : List (Nat × Nat) → Level → Level → Prop where
  | nil (q : Level) : FrontConsume [] q q
  | part (o : Order) (qty : Nat) (ts : List (Nat × Nat)) (tail out : Level) :
      qty < o.remainingQuantity →
      FrontConsume ts ({ o with remainingQuantity := o.remainingQuantity - qty } :: tail) out →
      FrontConsume ((o.id, qty) :: ts) (o :: tail) out
  | full (o : Order) (ts : List (Nat × Nat)) (tail out : Level) :
      FrontConsume ts tail out →
      FrontConsume ((o.id, o.remainingQuantity) :: ts) (o :: tail) out

/-- The bid leg of a trade as a consumption event. -/
def bidEvent (t : Trade) : Nat × Nat :=
  (t.bid.orderId, t.bid.quantity)

/-- The ask leg of a trade as a consumption event. -/
def askEvent (t : Trade) : Nat × Nat :=
  (t.ask.orderId, t.ask.quantity)

/-- Price-priority consumption of one side of the book: the final side
`out` is obtained from the initial side `inp` by fully consuming some
prefix of the price levels (best first) and front-consuming part of the
next level; all worse levels are untouched. -/
def ConsumedBestFirst (out inp : List (Int × Level)) : Prop :=
  ∃ n, out = inp.drop n ∨
    ∃ p lvl lvl' rest ts, inp.drop n = (p, lvl) :: rest ∧
      FrontConsume ts lvl lvl' ∧ out = (p, lvl') :: rest

/-- Well-formedness of a book state as the public API maintains it:
price-sorted sides, no empty level queues, an uncrossed book, and every
resting order registered in the id lookup. -/
def BookWF (b : OrderBook) : Prop :=
  (b.bids.map (·.1)).Chain' (· > ·) ∧
  (b.asks.map (·.1)).Chain' (· < ·) ∧
  (∀ pl ∈ b.bids, pl.2 ≠ ([] : Level)) ∧
  (∀ pl ∈ b.asks, pl.2 ≠ ([] : Level)) ∧
  (∀ pb ∈ b.bids.map (·.1), ∀ pa ∈ b.asks.map (·.1), pb < pa) ∧
  (∀ o ∈ ordersOf b.bids, ordersContains b.orders o.id = true) ∧
  (∀ o ∈ ordersOf b.asks, ordersContains b.orders o.id = true)

/-- The quantity invariant `0 ≤ remaining ≤ initial` for every resting
order (the lower bound is inherent to `Nat`). -/
def QuantInv (b : OrderBook) : Prop :=
  ∀ o ∈ ordersOf b.bids ++ ordersOf b.asks, o.remainingQuantity ≤ o.initialQuantity

/-- The quantity invariant for a single queue. -/
def LevelQI (lvl : Level) : Prop :=
  ∀ o ∈ lvl, o.remainingQuantity ≤ o.initialQuantity

/-- The quantity invariant for one side of the book. -/
def SideQI (m : List (Int × Level)) : Prop :=
  ∀ pl ∈ m, LevelQI pl.2

/-- Book after `AddOrder(GoodTillCancel, id 1, Buy, 100, 5)` on the empty
book. -/
def exBook1 : OrderBook :=
  (emptyBook.AddOrder (Order.make OrderType.GoodTillCancel 1 Side.Buy 100 5)).book

/-- Book after additionally `AddOrder(GoodTillCancel, id 2, Sell, 100, 10)`:
the bid fills fully, the ask rests with remaining quantity 5 at price 100 —
and the matching loop has erased the price-100 aggregate entry. -/
def exBook2 : OrderBook :=
  (exBook1.AddOrder (Order.make OrderType.GoodTillCancel 2 Side.Sell 100 10)).book

/-- Book holding a single resting bid of 5 at price 101. -/
def exBookBid101 : OrderBook :=
  (emptyBook.AddOrder (Order.make OrderType.GoodTillCancel 1 Side.Buy 101 5)).book

/-- Book holding resting asks of 3 at price 99 and 4 at price 101. -/
def exBookAsks : OrderBook :=
  ((emptyBook.AddOrder (Order.make OrderType.GoodTillCancel 11 Side.Sell 99 3)).book.AddOrder
    (Order.make OrderType.GoodTillCancel 12 Side.Sell 101 4)).book

/-- The crossed book state reached inside
`exBookBid101.AddOrder (GoodTillCancel, id 2, Sell, 99, 5)` right after the
insertion step, just before the matching loop runs: resting bid 5 at 101,
incoming sell 5 at 99. -/
def exCrossBook : OrderBook :=
  ⟨[(101, [Order.make OrderType.GoodTillCancel 1 Side.Buy 101 5])],
   [(99, [Order.make OrderType.GoodTillCancel 2 Side.Sell 99 5])],
   [(1, (Side.Buy, 101, OrderType.GoodTillCancel)),
    (2, (Side.Sell, 99, OrderType.GoodTillCancel))],
   [(101, ⟨1, 5⟩), (99, ⟨1, 5⟩)]⟩

theorem Fill_min_left (bid ask : Order) :
    bid.Fill (min bid.remainingQuantity ask.remainingQuantity) =
      some { bid with remainingQuantity :=
        bid.remainingQuantity - min bid.remainingQuantity ask.remainingQuantity } := by
  simp [Order.Fill]

theorem Fill_min_right (bid ask : Order) :
    ask.Fill (min bid.remainingQuantity ask.remainingQuantity) =
      some { ask with remainingQuantity :=
        ask.remainingQuantity - min bid.remainingQuantity ask.remainingQuantity } := by
  simp [Order.Fill]

theorem matchInnerF_nil_bq (bp ap : Int) (f : Nat) (aq : Level) (os : OrdersMap)
    (d : DataMap) : MatchInnerF bp ap f [] aq os d = ⟨[], aq, os, d, [], false⟩ := by
  cases f <;> simp [MatchInnerF]

theorem matchInnerF_nil_aq (bp ap : Int) (f : Nat) (bq : Level) (os : OrdersMap)
    (d : DataMap) : MatchInnerF bp ap f bq [] os d = ⟨bq, [], os, d, [], false⟩ := by
  cases f <;> cases bq <;> simp [MatchInnerF]

/-- Recursion equation for `MatchInnerF` on two non-empty queues: the
`Order::Fill` calls always succeed because the fill quantity is the minimum
of the two remaining quantities. -/
theorem matchInnerF_cons (bp ap : Int) (n : Nat) (bid ask : Order) (bq' aq' : Level)
    (os : OrdersMap) (d : DataMap) :
    MatchInnerF bp ap (n + 1) (bid :: bq') (ask :: aq') os d =
      (let qty := min bid.remainingQuantity ask.remainingQuantity
       let bid' := { bid with remainingQuantity := bid.remainingQuantity - qty }
       let ask' := { ask with remainingQuantity := ask.remainingQuantity - qty }
       let tr : Trade := ⟨⟨bid.id, ap, qty⟩, ⟨ask.id, ap, qty⟩⟩
       let d1 := OnOrderMatched bp qty bid'.IsFilled d
       let d2 := OnOrderMatched ap qty ask'.IsFilled d1
       let os1 := if bid'.IsFilled then ordersErase bid.id os else os
       let os2 := if ask'.IsFilled then ordersErase ask.id os1 else os1
       let r := MatchInnerF bp ap n (if bid'.IsFilled then bq' else bid' :: bq')
         (if ask'.IsFilled then aq' else ask' :: aq') os2 d2
       ⟨r.bidQ, r.askQ, r.orders, r.data, tr :: r.trades, r.panicked⟩) := by
  simp only [MatchInnerF, Fill_min_left, Fill_min_right]

/-- Any fuel at least the combined queue length gives the same result. -/
theorem matchInnerF_fuel (bp ap : Int) (f1 : Nat) : ∀ (f2 : Nat) (bq aq : Level)
    (os : OrdersMap) (d : DataMap), bq.length + aq.length ≤ f1 →
    bq.length + aq.length ≤ f2 →
    MatchInnerF bp ap f1 bq aq os d = MatchInnerF bp ap f2 bq aq os d := by
  induction f1 with
  | zero =>
    intro f2 bq aq os d h1 h2
    cases bq with
    | nil => rw [matchInnerF_nil_bq, matchInnerF_nil_bq]
    | cons bid bq' => simp only [List.length_cons] at h1; omega
  | succ n ih =>
    intro f2 bq aq os d h1 h2
    cases bq with
    | nil => rw [matchInnerF_nil_bq, matchInnerF_nil_bq]
    | cons bid bq' =>
      cases aq with
      | nil => rw [matchInnerF_nil_aq, matchInnerF_nil_aq]
      | cons ask aq' =>
        cases f2 with
        | zero => simp only [List.length_cons] at h2; omega
        | succ m =>
          rw [matchInnerF_cons, matchInnerF_cons]
          simp only [List.length_cons] at h1 h2
          have hm := min_choice bid.remainingQuantity ask.remainingQuantity
          by_cases hfb : ({ bid with remainingQuantity :=
              bid.remainingQuantity - min bid.remainingQuantity ask.remainingQuantity } :
                Order).IsFilled = true <;>
            by_cases hfa : ({ ask with remainingQuantity :=
              ask.remainingQuantity - min bid.remainingQuantity ask.remainingQuantity } :
                Order).IsFilled = true
          · simp only [if_pos hfb, if_pos hfa]
            rw [ih m _ _ _ _ (by omega) (by omega)]
          · simp only [if_pos hfb, if_neg hfa]
            rw [ih m _ _ _ _ (by simp only [List.length_cons]; omega)
              (by simp only [List.length_cons]; omega)]
          · simp only [if_neg hfb, if_pos hfa]
            rw [ih m _ _ _ _ (by simp only [List.length_cons]; omega)
              (by simp only [List.length_cons]; omega)]
          · exfalso
            simp only [Order.IsFilled, beq_iff_eq] at hfb hfa
            rcases hm with hm | hm <;> rw [hm] at hfb hfa <;> omega

/-- The inner matching loop never hits the `Order::Fill` failure. -/
theorem matchInnerF_no_panic (bp ap : Int) (fuel : Nat) : ∀ (bq aq : Level)
    (os : OrdersMap) (d : DataMap),
    (MatchInnerF bp ap fuel bq aq os d).panicked = false := by
  induction fuel with
  | zero =>
    intro bq aq os d
    cases bq with
    | nil => rw [matchInnerF_nil_bq]
    | cons bid bq' => cases aq with
      | nil => rw [matchInnerF_nil_aq]
      | cons ask aq' => rfl
  | succ n ih =>
    intro bq aq os d
    cases bq with
    | nil => rw [matchInnerF_nil_bq]
    | cons bid bq' =>
      cases aq with
      | nil => rw [matchInnerF_nil_aq]
      | cons ask aq' =>
        rw [matchInnerF_cons]
        exact ih _ _ _ _

theorem matchInner_no_panic (bp ap : Int) (bq aq : Level) (os : OrdersMap)
    (d : DataMap) : (MatchInner bp ap bq aq os d).panicked = false :=
  matchInnerF_no_panic bp ap _ bq aq os d

/-- The inner matching loop runs until one of the two queues is empty. -/
theorem matchInnerF_one_empty (bp ap : Int) (fuel : Nat) : ∀ (bq aq : Level)
    (os : OrdersMap) (d : DataMap), bq.length + aq.length ≤ fuel →
    (MatchInnerF bp ap fuel bq aq os d).bidQ = [] ∨
      (MatchInnerF bp ap fuel bq aq os d).askQ = [] := by
  induction fuel with
  | zero =>
    intro bq aq os d hf
    cases bq with
    | nil => rw [matchInnerF_nil_bq]; exact Or.inl rfl
    | cons bid bq' => simp only [List.length_cons] at hf; omega
  | succ n ih =>
    intro bq aq os d hf
    cases bq with
    | nil => rw [matchInnerF_nil_bq]; exact Or.inl rfl
    | cons bid bq' =>
      cases aq with
      | nil => rw [matchInnerF_nil_aq]; exact Or.inr rfl
      | cons ask aq' =>
        rw [matchInnerF_cons]
        simp only [List.length_cons] at hf
        have hm := min_choice bid.remainingQuantity ask.remainingQuantity
        by_cases hfb : ({ bid with remainingQuantity :=
            bid.remainingQuantity - min bid.remainingQuantity ask.remainingQuantity } :
              Order).IsFilled = true <;>
          by_cases hfa : ({ ask with remainingQuantity :=
            ask.remainingQuantity - min bid.remainingQuantity ask.remainingQuantity } :
              Order).IsFilled = true
        · simp only [if_pos hfb, if_pos hfa]
          exact ih _ _ _ _ (by omega)
        · simp only [if_pos hfb, if_neg hfa]
          exact ih _ _ _ _ (by simp only [List.length_cons]; omega)
        · simp only [if_neg hfb, if_pos hfa]
          exact ih _ _ _ _ (by simp only [List.length_cons]; omega)
        · exfalso
          simp only [Order.IsFilled, beq_iff_eq] at hfb hfa
          rcases hm with hm | hm <;> rw [hm] at hfb hfa <;> omega

theorem matchInner_one_empty (bp ap : Int) (bq aq : Level) (os : OrdersMap)
    (d : DataMap) :
    (MatchInner bp ap bq aq os d).bidQ = [] ∨
      (MatchInner bp ap bq aq os d).askQ = [] :=
  matchInnerF_one_empty bp ap _ bq aq os d (le_refl _)

/-- Every trade emitted by the inner loop carries the ask-side price
`askPrice` on both of its legs. -/
theorem matchInnerF_trade_prices (bp ap : Int) (fuel : Nat) : ∀ (bq aq : Level)
    (os : OrdersMap) (d : DataMap),
    ∀ t ∈ (MatchInnerF bp ap fuel bq aq os d).trades,
      t.bid.price = ap ∧ t.ask.price = ap := by
  induction fuel with
  | zero =>
    intro bq aq os d
    cases bq with
    | nil => rw [matchInnerF_nil_bq]; simp
    | cons bid bq' => cases aq with
      | nil => rw [matchInnerF_nil_aq]; simp
      | cons ask aq' => intro t ht; simp [MatchInnerF] at ht
  | succ n ih =>
    intro bq aq os d
    cases bq with
    | nil => rw [matchInnerF_nil_bq]; simp
    | cons bid bq' =>
      cases aq with
      | nil => rw [matchInnerF_nil_aq]; simp
      | cons ask aq' =>
        rw [matchInnerF_cons]
        intro t ht
        simp only [List.mem_cons] at ht
        rcases ht with ht | ht
        · subst ht; exact ⟨rfl, rfl⟩
        · exact ih _ _ _ _ t ht

theorem matchInner_trade_prices (bp ap : Int) (bq aq : Level) (os : OrdersMap)
    (d : DataMap) :
    ∀ t ∈ (MatchInner bp ap bq aq os d).trades,
      t.bid.price = ap ∧ t.ask.price = ap :=
  matchInnerF_trade_prices bp ap _ bq aq os d

/-- The inner loop consumes the bid queue front-first: its trade events,
projected to the bid legs, hit the head order and advance only on
exhaustion. -/
theorem matchInnerF_bid_consume (bp ap : Int) (fuel : Nat) : ∀ (bq aq : Level)
    (os : OrdersMap) (d : DataMap),
    FrontConsume ((MatchInnerF bp ap fuel bq aq os d).trades.map bidEvent) bq
      (MatchInnerF bp ap fuel bq aq os d).bidQ := by
  induction fuel with
  | zero =>
    intro bq aq os d
    cases bq with
    | nil => rw [matchInnerF_nil_bq]; exact FrontConsume.nil []
    | cons bid bq' => cases aq with
      | nil => rw [matchInnerF_nil_aq]; exact FrontConsume.nil _
      | cons ask aq' => exact FrontConsume.nil _
  | succ n ih =>
    intro bq aq os d
    cases bq with
    | nil => rw [matchInnerF_nil_bq]; exact FrontConsume.nil []
    | cons bid bq' =>
      cases aq with
      | nil => rw [matchInnerF_nil_aq]; exact FrontConsume.nil _
      | cons ask aq' =>
        rw [matchInnerF_cons]
        simp only [List.map_cons]
        by_cases hfb : ({ bid with remainingQuantity :=
            bid.remainingQuantity - min bid.remainingQuantity ask.remainingQuantity } :
              Order).IsFilled = true
        · have hq : min bid.remainingQuantity ask.remainingQuantity =
              bid.remainingQuantity := by
            simp only [Order.IsFilled, beq_iff_eq] at hfb
            have := Nat.min_le_left bid.remainingQuantity ask.remainingQuantity
            omega
          have step : bidEvent ⟨⟨bid.id, ap, min bid.remainingQuantity ask.remainingQuantity⟩,
              ⟨ask.id, ap, min bid.remainingQuantity ask.remainingQuantity⟩⟩ =
              (bid.id, bid.remainingQuantity) := by
            simp [bidEvent, hq]
          simp only [if_pos hfb, step]
          exact FrontConsume.full bid _ _ _ (ih _ _ _ _)
        · have hq : min bid.remainingQuantity ask.remainingQuantity <
              bid.remainingQuantity := by
            simp only [Order.IsFilled, beq_iff_eq] at hfb
            have := Nat.min_le_left bid.remainingQuantity ask.remainingQuantity
            omega
          simp only [if_neg hfb]
          exact FrontConsume.part bid _ _ _ _ hq (ih _ _ _ _)

theorem matchInner_bid_consume (bp ap : Int) (bq aq : Level) (os : OrdersMap)
    (d : DataMap) :
    FrontConsume ((MatchInner bp ap bq aq os d).trades.map bidEvent) bq
      (MatchInner bp ap bq aq os d).bidQ :=
  matchInnerF_bid_consume bp ap _ bq aq os d

/-- The inner loop consumes the ask queue front-first as well. -/
theorem matchInnerF_ask_consume (bp ap : Int) (fuel : Nat) : ∀ (bq aq : Level)
    (os : OrdersMap) (d : DataMap),
    FrontConsume ((MatchInnerF bp ap fuel bq aq os d).trades.map askEvent) aq
      (MatchInnerF bp ap fuel bq aq os d).askQ := by
  induction fuel with
  | zero =>
    intro bq aq os d
    cases bq with
    | nil => rw [matchInnerF_nil_bq]; exact FrontConsume.nil _
    | cons bid bq' => cases aq with
      | nil => rw [matchInnerF_nil_aq]; exact FrontConsume.nil []
      | cons ask aq' => exact FrontConsume.nil _
  | succ n ih =>
    intro bq aq os d
    cases bq with
    | nil => rw [matchInnerF_nil_bq]; exact FrontConsume.nil _
    | cons bid bq' =>
      cases aq with
      | nil => rw [matchInnerF_nil_aq]; exact FrontConsume.nil []
      | cons ask aq' =>
        rw [matchInnerF_cons]
        simp only [List.map_cons]
        by_cases hfa : ({ ask with remainingQuantity :=
            ask.remainingQuantity - min bid.remainingQuantity ask.remainingQuantity } :
              Order).IsFilled = true
        · have hq : min bid.remainingQuantity ask.remainingQuantity =
              ask.remainingQuantity := by
            simp only [Order.IsFilled, beq_iff_eq] at hfa
            have := Nat.min_le_right bid.remainingQuantity ask.remainingQuantity
            omega
          have step : askEvent ⟨⟨bid.id, ap, min bid.remainingQuantity ask.remainingQuantity⟩,
              ⟨ask.id, ap, min bid.remainingQuantity ask.remainingQuantity⟩⟩ =
              (ask.id, ask.remainingQuantity) := by
            simp [askEvent, hq]
          simp only [if_pos hfa, step]
          exact FrontConsume.full ask _ _ _ (ih _ _ _ _)
        · have hq : min bid.remainingQuantity ask.remainingQuantity <
              ask.remainingQuantity := by
            simp only [Order.IsFilled, beq_iff_eq] at hfa
            have := Nat.min_le_right bid.remainingQuantity ask.remainingQuantity
            omega
          simp only [if_neg hfa]
          exact FrontConsume.part ask _ _ _ _ hq (ih _ _ _ _)

theorem matchInner_ask_consume (bp ap : Int) (bq aq : Level) (os : OrdersMap)
    (d : DataMap) :
    FrontConsume ((MatchInner bp ap bq aq os d).trades.map askEvent) aq
      (MatchInner bp ap bq aq os d).askQ :=
  matchInnerF_ask_consume bp ap _ bq aq os d

/-- The outer crossing loop never hits the `Order::Fill` failure. -/
theorem matchOuter_no_panic (fuel : Nat) (b : OrderBook) :
    (MatchOuter fuel b).panicked = false := by
  induction fuel generalizing b with
  | zero => simp [MatchOuter]
  | succ n ih =>
    obtain ⟨bids, asks, os, d⟩ := b
    cases bids with
    | nil => simp [MatchOuter]
    | cons hd tl =>
      obtain ⟨bp, bq⟩ := hd
      cases asks with
      | nil => simp [MatchOuter]
      | cons hd2 tl2 =>
        obtain ⟨ap, aq⟩ := hd2
        simp only [MatchOuter]
        split
        · rfl
        · simp only [matchInner_no_panic, Bool.false_eq_true, if_false]
          exact ih _

/-- Every trade emitted by the outer crossing loop carries one common
execution price on both legs, namely the price of one of the ask levels. -/
theorem matchOuter_trade_prices (fuel : Nat) (b : OrderBook) :
    ∀ t ∈ (MatchOuter fuel b).trades,
      t.bid.price = t.ask.price ∧ t.ask.price ∈ b.asks.map (·.1) := by
  induction fuel generalizing b with
  | zero => simp [MatchOuter]
  | succ n ih =>
    obtain ⟨bids, asks, os, d⟩ := b
    cases bids with
    | nil => simp [MatchOuter]
    | cons hd tl =>
      obtain ⟨bp, bq⟩ := hd
      cases asks with
      | nil => simp [MatchOuter]
      | cons hd2 tl2 =>
        obtain ⟨ap, aq⟩ := hd2
        simp only [MatchOuter]
        split
        · simp
        · simp only [matchInner_no_panic, Bool.false_eq_true, if_false]
          intro t ht
          simp only [List.mem_append] at ht
          rcases ht with ht | ht
          · have h1 := matchInner_trade_prices bp ap bq aq os d t ht
            exact ⟨h1.1.trans h1.2.symm, by simp [h1.2]⟩
          · have h2 := ih _ t ht
            refine ⟨h2.1, ?_⟩
            by_cases he : (MatchInner bp ap bq aq os d).askQ.isEmpty <;>
              simp [he] at h2 ⊢
            · exact Or.inr h2.2
            · tauto

/-- A `contains = false` id is also not found. -/
theorem ordersFind_of_not_contains (os : OrdersMap) (id : Nat)
    (h : ordersContains os id = false) : ordersFind os id = none := by
  simp only [ordersContains, List.any_eq_false] at h
  simp only [ordersFind, Option.map_eq_none', List.find?_eq_none]
  exact h

/-- `AddOrder` with an already-live id returns an empty trade list and
leaves the book untouched. -/
theorem addOrder_dup (b : OrderBook) (o : Order)
    (h : ordersContains b.orders o.id = true) : b.AddOrder o = ⟨[], b, false⟩ := by
  simp [OrderBook.AddOrder, h]

/-- `CancelOrder` of an unknown id is a no-op on the whole state. -/
theorem cancelOrder_unknown (b : OrderBook) (id : Nat)
    (h : ordersContains b.orders id = false) : b.CancelOrder id = b := by
  simp [OrderBook.CancelOrder, OrderBook.CancelOrderInternal,
    ordersFind_of_not_contains _ _ h]

/-- `ModifyOrder` of an unknown id returns an empty trade list and leaves
the book untouched. -/
theorem modifyOrder_unknown (b : OrderBook) (m : OrderModify)
    (h : ordersContains b.orders m.orderId = false) :
    b.ModifyOrder m = ⟨[], b, false⟩ := by
  simp [OrderBook.ModifyOrder, ordersFind_of_not_contains _ _ h]

/-- Erasing an id from a duplicate-free lookup removes it entirely. -/
theorem ordersContains_erase_self (os : OrdersMap) (id : Nat)
    (hnd : (os.map (·.1)).Nodup) :
    ordersContains (ordersErase id os) id = false := by
  induction os with
  | nil => rfl
  | cons e os ih =>
    simp only [List.map_cons, List.nodup_cons] at hnd
    by_cases he : (e.1 == id) = true
    · simp only [ordersErase, List.eraseP_cons, he, if_true, cond_true]
      simp only [beq_iff_eq] at he
      subst he
      simp only [ordersContains, List.any_eq_false]
      intro x hx
      simp only [beq_iff_eq]
      intro hcon
      exact hnd.1 (hcon ▸ List.mem_map_of_mem (·.1) hx)
    · simp only [ordersErase, List.eraseP_cons, he, cond_false]
      simp only [ordersContains, List.any_cons, he, Bool.false_or]
      exact ih hnd.2

/-- Whatever branch `CancelOrderInternal` takes on a live id, the id-lookup
entry is erased; on an unknown id nothing changes. -/
theorem cancelInternal_orders (b : OrderBook) (id : Nat) :
    (b.CancelOrderInternal id).orders = ordersErase id b.orders ∨
      b.CancelOrderInternal id = b := by
  unfold OrderBook.CancelOrderInternal
  cases h : ordersFind b.orders id with
  | none => exact Or.inr rfl
  | some e =>
    left
    obtain ⟨side, p, ty⟩ := e
    cases side <;> dsimp only <;> split <;> rfl

/-- Canceling an id twice is the same as canceling it once. -/
theorem cancel_idempotent (b : OrderBook) (id : Nat)
    (hnd : (b.orders.map (·.1)).Nodup) :
    (b.CancelOrder id).CancelOrder id = b.CancelOrder id := by
  rcases cancelInternal_orders b id with h1 | h1
  · apply cancelOrder_unknown
    rw [show (b.CancelOrder id).orders = ordersErase id b.orders from h1]
    exact ordersContains_erase_self _ _ hnd
  · show (b.CancelOrderInternal id).CancelOrderInternal id = b.CancelOrderInternal id
    rw [h1]
    exact h1

/-- A market buy against an empty ask side is rejected with no effect. -/
theorem market_buy_empty (b : OrderBook) (o : Order)
    (hm : o.type = OrderType.Market) (hs : o.side = Side.Buy)
    (ha : b.asks = []) : b.AddOrder o = ⟨[], b, false⟩ := by
  by_cases hdup : ordersContains b.orders o.id = true
  · exact addOrder_dup b o hdup
  · simp at hdup
    simp [OrderBook.AddOrder, hdup, OrderBook.ConvertMarket, hm, hs, ha]

/-- A market sell against an empty bid side is rejected with no effect. -/
theorem market_sell_empty (b : OrderBook) (o : Order)
    (hm : o.type = OrderType.Market) (hs : o.side = Side.Sell)
    (hb : b.bids = []) : b.AddOrder o = ⟨[], b, false⟩ := by
  by_cases hdup : ordersContains b.orders o.id = true
  · exact addOrder_dup b o hdup
  · simp at hdup
    simp [OrderBook.AddOrder, hdup, OrderBook.ConvertMarket, hm, hs, hb]

/-- A market buy with resting asks is converted, before any matching, to a
`GoodTillCancel` order priced at the last (worst) ask level, and then goes
through the ordinary insert-and-match pipeline. -/
theorem market_buy_convert (b : OrderBook) (o : Order)
    (hm : o.type = OrderType.Market) (hs : o.side = Side.Buy)
    (hdup : ordersContains b.orders o.id = false)
    (p : Int) (lvl : Level) (hl : b.asks.getLast? = some (p, lvl)) :
    b.AddOrder o =
      b.InsertAndMatch { o with type := OrderType.GoodTillCancel, price := p } := by
  simp [OrderBook.AddOrder, hdup, OrderBook.ConvertMarket, hm, hs, hl,
    Order.ToGoodTillCancel]

/-- A market sell with resting bids is converted to a `GoodTillCancel`
order priced at the last (worst) bid level. -/
theorem market_sell_convert (b : OrderBook) (o : Order)
    (hm : o.type = OrderType.Market) (hs : o.side = Side.Sell)
    (hdup : ordersContains b.orders o.id = false)
    (p : Int) (lvl : Level) (hl : b.bids.getLast? = some (p, lvl)) :
    b.AddOrder o =
      b.InsertAndMatch { o with type := OrderType.GoodTillCancel, price := p } := by
  simp [OrderBook.AddOrder, hdup, OrderBook.ConvertMarket, hm, hs, hl,
    Order.ToGoodTillCancel]

/-- In an ascending-sorted list the last key is the maximum. -/
theorem getLast_max_asc {α : Type} (l : List (Int × α)) (p : Int) (x : α)
    (hs : (l.map (·.1)).Chain' (· < ·)) (hl : l.getLast? = some (p, x)) :
    ∀ q ∈ l.map (·.1), q ≤ p := by
  induction l with
  | nil => simp at hl
  | cons e rest ih =>
    cases hr : rest with
    | nil =>
      subst hr
      simp only [List.getLast?_singleton, Option.some_inj] at hl
      subst hl
      simp
    | cons e2 rest2 =>
      subst hr
      have hl2 : (e2 :: rest2).getLast? = some (p, x) := by
        rw [List.getLast?_cons_cons] at hl
        exact hl
      simp only [List.map_cons, List.chain'_cons] at hs
      have ih2 := ih (by simp [hs.2]) hl2
      intro q hq
      simp only [List.map_cons, List.mem_cons] at hq
      rcases hq with hq | hq
      · subst hq
        have h2 : e2.1 ≤ p := ih2 e2.1 (by simp)
        have := hs.1
        omega
      · exact ih2 q (by simpa using hq)

/-- In a descending-sorted list the last key is the minimum. -/
theorem getLast_min_desc {α : Type} (l : List (Int × α)) (p : Int) (x : α)
    (hs : (l.map (·.1)).Chain' (· > ·)) (hl : l.getLast? = some (p, x)) :
    ∀ q ∈ l.map (·.1), p ≤ q := by
  induction l with
  | nil => simp at hl
  | cons e rest ih =>
    cases hr : rest with
    | nil =>
      subst hr
      simp only [List.getLast?_singleton, Option.some_inj] at hl
      subst hl
      simp
    | cons e2 rest2 =>
      subst hr
      have hl2 : (e2 :: rest2).getLast? = some (p, x) := by
        rw [List.getLast?_cons_cons] at hl
        exact hl
      simp only [List.map_cons, List.chain'_cons] at hs
      have ih2 := ih (by simp [hs.2]) hl2
      intro q hq
      simp only [List.map_cons, List.mem_cons] at hq
      rcases hq with hq | hq
      · subst hq
        have h2 : p ≤ e2.1 := ih2 e2.1 (by simp)
        have := hs.1
        omega
      · exact ih2 q (by simpa using hq)

/-- Folding the wrapping accumulator over a queue computes the sum of the
remaining quantities modulo `2^64`. -/
theorem levelQty_aux (lvl : Level) : ∀ acc : Nat,
    lvl.foldl (fun acc o => (acc + o.remainingQuantity) % 2 ^ 64) (acc % 2 ^ 64) =
      (acc + (lvl.map (·.remainingQuantity)).sum) % 2 ^ 64 := by
  induction lvl with
  | nil => intro acc; simp
  | cons o rest ih =>
    intro acc
    simp only [List.foldl_cons, List.map_cons, List.sum_cons]
    rw [Nat.mod_add_mod, ih (acc + o.remainingQuantity), Nat.add_assoc]

theorem levelQty_eq_sum_mod (lvl : Level) :
    levelQty lvl = (lvl.map (·.remainingQuantity)).sum % 2 ^ 64 := by
  have h := levelQty_aux lvl 0
  simpa [levelQty] using h

theorem levelQty_eq_sum (lvl : Level)
    (h : (lvl.map (·.remainingQuantity)).sum < 2 ^ 64) :
    levelQty lvl = (lvl.map (·.remainingQuantity)).sum := by
  rw [levelQty_eq_sum_mod, Nat.mod_eq_of_lt h]

theorem totalRemaining_cons (p : Int) (lvl : Level) (rest : List (Int × Level)) :
    totalRemaining ((p, lvl) :: rest) =
      (lvl.map (·.remainingQuantity)).sum + totalRemaining rest := by
  simp [totalRemaining, ordersOf]

/-- Summing the snapshot quantities over all levels of one side gives the
total remaining quantity of that side, as long as it fits in `uint64`. -/
theorem side_levels_sum (L : List (Int × Level))
    (hb : totalRemaining L < 2 ^ 64) :
    ((L.map (fun pl => (pl.1, levelQty pl.2))).map (·.2)).sum = totalRemaining L := by
  induction L with
  | nil => simp [totalRemaining, ordersOf]
  | cons e rest ih =>
    obtain ⟨p, lvl⟩ := e
    rw [totalRemaining_cons] at hb ⊢
    simp only [List.map_cons, List.sum_cons]
    rw [levelQty_eq_sum _ (by omega), ih (by omega)]

theorem getBidLevels_sum (b : OrderBook) (depth : Nat)
    (hd : b.bids.length ≤ depth) (hb : totalRemaining b.bids < 2 ^ 64) :
    ((b.GetBidLevels depth).map (·.2)).sum = totalRemaining b.bids := by
  unfold OrderBook.GetBidLevels
  rw [List.take_of_length_le hd]
  exact side_levels_sum b.bids hb

theorem getAskLevels_sum (b : OrderBook) (depth : Nat)
    (hd : b.asks.length ≤ depth) (hb : totalRemaining b.asks < 2 ^ 64) :
    ((b.GetAskLevels depth).map (·.2)).sum = totalRemaining b.asks := by
  unfold OrderBook.GetAskLevels
  rw [List.take_of_length_le hd]
  exact side_levels_sum b.asks hb

/-- The level snapshot prices are the first `depth` side prices, hence in
priority order whenever the side is sorted. -/
theorem getBidLevels_prices (b : OrderBook) (depth : Nat) :
    (b.GetBidLevels depth).map (·.1) = (b.bids.map (·.1)).take depth := by
  unfold OrderBook.GetBidLevels
  rw [List.map_map, ← List.map_take]
  rfl

theorem getAskLevels_prices (b : OrderBook) (depth : Nat) :
    (b.GetAskLevels depth).map (·.1) = (b.asks.map (·.1)).take depth := by
  unfold OrderBook.GetAskLevels
  rw [List.map_map, ← List.map_take]
  rfl

theorem levelQI_eraseP (lvl : Level) (f : Order → Bool) (h : LevelQI lvl) :
    LevelQI (lvl.eraseP f) := by
  intro o ho
  exact h o ((List.eraseP_sublist lvl).mem ho)

theorem sideQI_mapErase (m : List (Int × Level)) (p : Int) (h : SideQI m) :
    SideQI (mapErase p m) := by
  induction m with
  | nil => intro pl hpl; cases hpl
  | cons e rest ih =>
    intro pl hpl
    simp only [mapErase] at hpl
    split at hpl
    · exact h pl (List.mem_cons_of_mem _ hpl)
    · rcases List.mem_cons.mp hpl with h1 | h1
      · exact h pl (h1 ▸ List.mem_cons_self _ _)
      · exact ih (fun q hq => h q (List.mem_cons_of_mem _ hq)) pl h1

theorem sideQI_mapSet (m : List (Int × Level)) (p : Int) (x : Level)
    (h : SideQI m) (hx : LevelQI x) : SideQI (mapSet p x m) := by
  induction m with
  | nil =>
    intro pl hpl
    simp only [mapSet, List.mem_singleton] at hpl
    subst hpl
    exact hx
  | cons e rest ih =>
    intro pl hpl
    simp only [mapSet] at hpl
    split at hpl
    · rcases List.mem_cons.mp hpl with h1 | h1
      · subst h1; exact hx
      · exact h pl (List.mem_cons_of_mem _ h1)
    · rcases List.mem_cons.mp hpl with h1 | h1
      · exact h pl (h1 ▸ List.mem_cons_self _ _)
      · exact ih (fun q hq => h q (List.mem_cons_of_mem _ hq)) pl h1

theorem sideQI_addLevelDesc (m : List (Int × Level)) (p : Int) (o : Order)
    (h : SideQI m) (ho : o.remainingQuantity ≤ o.initialQuantity) :
    SideQI (addLevelDesc p o m) := by
  induction m with
  | nil =>
    intro pl hpl
    simp only [addLevelDesc, List.mem_singleton] at hpl
    subst hpl
    intro x hx
    simp only [List.mem_singleton] at hx
    subst hx
    exact ho
  | cons e rest ih =>
    obtain ⟨q, lvl⟩ := e
    intro pl hpl
    simp only [addLevelDesc] at hpl
    split at hpl
    · rcases List.mem_cons.mp hpl with h1 | h1
      · subst h1
        intro x hx
        simp only [List.mem_singleton] at hx
        subst hx
        exact ho
      · exact h pl h1
    · split at hpl
      · rcases List.mem_cons.mp hpl with h1 | h1
        · subst h1
          intro x hx
          rcases List.mem_append.mp hx with h2 | h2
          · exact h (q, lvl) (List.mem_cons_self _ _) x h2
          · simp only [List.mem_singleton] at h2
            subst h2
            exact ho
        · exact h pl (List.mem_cons_of_mem _ h1)
      · rcases List.mem_cons.mp hpl with h1 | h1
        · exact h pl (h1 ▸ List.mem_cons_self _ _)
        · exact ih (fun s hs => h s (List.mem_cons_of_mem _ hs)) pl h1

theorem sideQI_addLevelAsc (m : List (Int × Level)) (p : Int) (o : Order)
    (h : SideQI m) (ho : o.remainingQuantity ≤ o.initialQuantity) :
    SideQI (addLevelAsc p o m) := by
  induction m with
  | nil =>
    intro pl hpl
    simp only [addLevelAsc, List.mem_singleton] at hpl
    subst hpl
    intro x hx
    simp only [List.mem_singleton] at hx
    subst hx
    exact ho
  | cons e rest ih =>
    obtain ⟨q, lvl⟩ := e
    intro pl hpl
    simp only [addLevelAsc] at hpl
    split at hpl
    · rcases List.mem_cons.mp hpl with h1 | h1
      · subst h1
        intro x hx
        simp only [List.mem_singleton] at hx
        subst hx
        exact ho
      · exact h pl h1
    · split at hpl
      · rcases List.mem_cons.mp hpl with h1 | h1
        · subst h1
          intro x hx
          rcases List.mem_append.mp hx with h2 | h2
          · exact h (q, lvl) (List.mem_cons_self _ _) x h2
          · simp only [List.mem_singleton] at h2
            subst h2
            exact ho
        · exact h pl (List.mem_cons_of_mem _ h1)
      · rcases List.mem_cons.mp hpl with h1 | h1
        · exact h pl (h1 ▸ List.mem_cons_self _ _)
        · exact ih (fun s hs => h s (List.mem_cons_of_mem _ hs)) pl h1

/-- The inner loop only ever lowers remaining quantities, so it preserves
the per-queue quantity invariant. -/
theorem matchInnerF_QI (bp ap : Int) (fuel : Nat) : ∀ (bq aq : Level)
    (os : OrdersMap) (d : DataMap), LevelQI bq → LevelQI aq →
    LevelQI (MatchInnerF bp ap fuel bq aq os d).bidQ ∧
      LevelQI (MatchInnerF bp ap fuel bq aq os d).askQ := by
  induction fuel with
  | zero =>
    intro bq aq os d hbq haq
    cases bq with
    | nil => rw [matchInnerF_nil_bq]; exact ⟨hbq, haq⟩
    | cons bid bq' =>
      cases aq with
      | nil => rw [matchInnerF_nil_aq]; exact ⟨hbq, haq⟩
      | cons ask aq' => exact ⟨hbq, haq⟩
  | succ n ih =>
    intro bq aq os d hbq haq
    cases bq with
    | nil => rw [matchInnerF_nil_bq]; exact ⟨hbq, haq⟩
    | cons bid bq' =>
      cases aq with
      | nil => rw [matchInnerF_nil_aq]; exact ⟨hbq, haq⟩
      | cons ask aq' =>
        rw [matchInnerF_cons]
        apply ih
        · split
          · exact fun o ho => hbq o (List.mem_cons_of_mem _ ho)
          · intro o ho
            rcases List.mem_cons.mp ho with h1 | h1
            · subst h1
              have := hbq bid (List.mem_cons_self _ _)
              simp only
              omega
            · exact hbq o (List.mem_cons_of_mem _ h1)
        · split
          · exact fun o ho => haq o (List.mem_cons_of_mem _ ho)
          · intro o ho
            rcases List.mem_cons.mp ho with h1 | h1
            · subst h1
              have := haq ask (List.mem_cons_self _ _)
              simp only
              omega
            · exact haq o (List.mem_cons_of_mem _ h1)

/-- The outer crossing loop preserves the quantity invariant on both sides. -/
theorem matchOuter_QI (fuel : Nat) (b : OrderBook) (hb : SideQI b.bids)
    (ha : SideQI b.asks) :
    SideQI (MatchOuter fuel b).book.bids ∧ SideQI (MatchOuter fuel b).book.asks := by
  induction fuel generalizing b with
  | zero => exact ⟨hb, ha⟩
  | succ n ih =>
    obtain ⟨bids, asks, os, d⟩ := b
    cases bids with
    | nil => exact ⟨hb, ha⟩
    | cons hd tl =>
      obtain ⟨bp, bq⟩ := hd
      cases asks with
      | nil => exact ⟨hb, ha⟩
      | cons hd2 tl2 =>
        obtain ⟨ap, aq⟩ := hd2
        simp only [MatchOuter]
        split
        · exact ⟨hb, ha⟩
        · simp only [matchInner_no_panic, Bool.false_eq_true, if_false]
          have hin := matchInnerF_QI bp ap (bq.length + aq.length) bq aq os d
            (hb (bp, bq) (List.mem_cons_self _ _))
            (ha (ap, aq) (List.mem_cons_self _ _))
          apply ih
          · dsimp only
            split
            · exact fun pl hpl => hb pl (List.mem_cons_of_mem _ hpl)
            · intro pl hpl
              rcases List.mem_cons.mp hpl with h1 | h1
              · subst h1; exact hin.1
              · exact hb pl (List.mem_cons_of_mem _ h1)
          · dsimp only
            split
            · exact fun pl hpl => ha pl (List.mem_cons_of_mem _ hpl)
            · intro pl hpl
              rcases List.mem_cons.mp hpl with h1 | h1
              · subst h1; exact hin.2
              · exact ha pl (List.mem_cons_of_mem _ h1)

/-- A successful `mapFind` yields a member of the association list. -/
theorem mapFind_mem {α : Type} (m : List (Int × α)) (p : Int) (x : α)
    (h : mapFind m p = some x) : (p, x) ∈ m := by
  induction m with
  | nil => simp [mapFind] at h
  | cons e rest ih =>
    by_cases he : (e.1 == p) = true
    · simp only [mapFind, List.find?, he, Option.map_some', Option.some_inj] at h
      simp only [beq_iff_eq] at he
      have hex : e = (p, x) := by
        obtain ⟨e1, e2⟩ := e
        simp only at he h
        rw [he, h]
      rw [← hex]
      exact List.mem_cons_self _ _
    · simp only [Bool.not_eq_true] at he
      simp only [mapFind, List.find?, he] at h
      exact List.mem_cons_of_mem _ (ih h)

/-- `CancelOrderInternal` preserves the quantity invariant. -/
theorem cancelInternal_QI (b : OrderBook) (id : Nat) (hb : SideQI b.bids)
    (ha : SideQI b.asks) :
    SideQI (b.CancelOrderInternal id).bids ∧ SideQI (b.CancelOrderInternal id).asks := by
  unfold OrderBook.CancelOrderInternal
  cases h : ordersFind b.orders id with
  | none => exact ⟨hb, ha⟩
  | some e =>
    obtain ⟨side, p, ty⟩ := e
    cases side <;> dsimp only
    · cases h2 : mapFind b.bids p with
      | none => exact ⟨hb, ha⟩
      | some lvl =>
        dsimp only
        have hlvl : LevelQI lvl := hb (p, lvl) (mapFind_mem _ _ _ h2)
        refine ⟨?_, ha⟩
        split
        · exact sideQI_mapErase _ _ hb
        · exact sideQI_mapSet _ _ _ hb (levelQI_eraseP _ _ hlvl)
    · cases h2 : mapFind b.asks p with
      | none => exact ⟨hb, ha⟩
      | some lvl =>
        dsimp only
        have hlvl : LevelQI lvl := ha (p, lvl) (mapFind_mem _ _ _ h2)
        refine ⟨hb, ?_⟩
        split
        · exact sideQI_mapErase _ _ ha
        · exact sideQI_mapSet _ _ _ ha (levelQI_eraseP _ _ hlvl)

theorem cancelFakHeadBids_QI (b : OrderBook) (hb : SideQI b.bids)
    (ha : SideQI b.asks) :
    SideQI (CancelFakHeadBids b).bids ∧ SideQI (CancelFakHeadBids b).asks := by
  unfold CancelFakHeadBids
  split
  · split
    · exact cancelInternal_QI _ _ hb ha
    · exact ⟨hb, ha⟩
  · exact ⟨hb, ha⟩

theorem cancelFakHeadAsks_QI (b : OrderBook) (hb : SideQI b.bids)
    (ha : SideQI b.asks) :
    SideQI (CancelFakHeadAsks b).bids ∧ SideQI (CancelFakHeadAsks b).asks := by
  unfold CancelFakHeadAsks
  split
  · split
    · exact cancelInternal_QI _ _ hb ha
    · exact ⟨hb, ha⟩
  · exact ⟨hb, ha⟩

theorem fakCleanup_QI (b : OrderBook) (hb : SideQI b.bids) (ha : SideQI b.asks) :
    SideQI (FakCleanup b).bids ∧ SideQI (FakCleanup b).asks := by
  unfold FakCleanup
  obtain ⟨h1, h2⟩ := cancelFakHeadBids_QI b hb ha
  exact cancelFakHeadAsks_QI _ h1 h2

theorem matchOrders_no_panic (b : OrderBook) : (b.MatchOrders).panicked = false := by
  simp [OrderBook.MatchOrders, matchOuter_no_panic]

theorem matchOrders_book (b : OrderBook) :
    (b.MatchOrders).book =
      FakCleanup (MatchOuter (b.bids.length + b.asks.length + 1) b).book := by
  simp [OrderBook.MatchOrders, matchOuter_no_panic]

theorem matchOrders_trades (b : OrderBook) :
    (b.MatchOrders).trades =
      (MatchOuter (b.bids.length + b.asks.length + 1) b).trades := by
  simp [OrderBook.MatchOrders, matchOuter_no_panic]

theorem matchOrders_QI (b : OrderBook) (hb : SideQI b.bids) (ha : SideQI b.asks) :
    SideQI (b.MatchOrders).book.bids ∧ SideQI (b.MatchOrders).book.asks := by
  rw [matchOrders_book]
  obtain ⟨h1, h2⟩ := matchOuter_QI (b.bids.length + b.asks.length + 1) b hb ha
  exact fakCleanup_QI _ h1 h2

/-- Market conversion never touches the quantities. -/
theorem convertMarket_quant (b : OrderBook) (o o' : Order)
    (h : b.ConvertMarket o = some o') :
    o'.remainingQuantity = o.remainingQuantity ∧
      o'.initialQuantity = o.initialQuantity := by
  unfold OrderBook.ConvertMarket at h
  split at h
  · split at h
    · split at h
      · simp only [Option.some_inj] at h
        subst h
        unfold Order.ToGoodTillCancel
        split <;> exact ⟨rfl, rfl⟩
      · cases h
    · split at h
      · simp only [Option.some_inj] at h
        subst h
        unfold Order.ToGoodTillCancel
        split <;> exact ⟨rfl, rfl⟩
      · cases h
  · simp only [Option.some_inj] at h
    subst h
    exact ⟨rfl, rfl⟩

theorem insertAndMatch_QI (b : OrderBook) (o : Order)
    (ho : o.remainingQuantity ≤ o.initialQuantity)
    (hb : SideQI b.bids) (ha : SideQI b.asks) :
    SideQI (b.InsertAndMatch o).book.bids ∧ SideQI (b.InsertAndMatch o).book.asks := by
  unfold OrderBook.InsertAndMatch
  split
  · exact ⟨hb, ha⟩
  · split
    · exact ⟨hb, ha⟩
    · apply matchOrders_QI
      · dsimp only
        split
        · exact sideQI_addLevelDesc _ _ _ hb ho
        · exact hb
      · dsimp only
        split
        · exact sideQI_addLevelAsc _ _ _ ha ho
        · exact ha

theorem addOrder_QI (b : OrderBook) (o : Order)
    (ho : o.remainingQuantity ≤ o.initialQuantity)
    (hb : SideQI b.bids) (ha : SideQI b.asks) :
    SideQI (b.AddOrder o).book.bids ∧ SideQI (b.AddOrder o).book.asks := by
  unfold OrderBook.AddOrder
  split
  · exact ⟨hb, ha⟩
  · cases h : b.ConvertMarket o with
    | none => exact ⟨hb, ha⟩
    | some o' =>
      obtain ⟨h1, h2⟩ := convertMarket_quant b o o' h
      exact insertAndMatch_QI b o' (by omega) hb ha

theorem insertAndMatch_no_panic (b : OrderBook) (o : Order) :
    (b.InsertAndMatch o).panicked = false := by
  unfold OrderBook.InsertAndMatch
  split
  · rfl
  · split
    · rfl
    · exact matchOrders_no_panic _

theorem addOrder_no_panic (b : OrderBook) (o : Order) :
    (b.AddOrder o).panicked = false := by
  unfold OrderBook.AddOrder
  split
  · rfl
  · split
    · rfl
    · exact insertAndMatch_no_panic _ _

theorem modifyOrder_no_panic (b : OrderBook) (m : OrderModify) :
    (b.ModifyOrder m).panicked = false := by
  unfold OrderBook.ModifyOrder
  split
  · rfl
  · exact addOrder_no_panic _ _

theorem modifyOrder_QI (b : OrderBook) (m : OrderModify)
    (hb : SideQI b.bids) (ha : SideQI b.asks) :
    SideQI (b.ModifyOrder m).book.bids ∧ SideQI (b.ModifyOrder m).book.asks := by
  unfold OrderBook.ModifyOrder
  split
  · exact ⟨hb, ha⟩
  · obtain ⟨h1, h2⟩ := cancelInternal_QI b m.orderId hb ha
    exact addOrder_QI _ _ (le_refl _) h1 h2

theorem prune_QI (b : OrderBook) (hb : SideQI b.bids) (ha : SideQI b.asks) :
    SideQI (b.PruneGoodForDayOrders).bids ∧ SideQI (b.PruneGoodForDayOrders).asks := by
  unfold OrderBook.PruneGoodForDayOrders
  generalize ((b.orders.filter (fun e => e.2.2.2 == OrderType.GoodForDay)).map (·.1)) = ids
  induction ids generalizing b with
  | nil => exact ⟨hb, ha⟩
  | cons id rest ih =>
    simp only [List.foldl_cons]
    obtain ⟨h1, h2⟩ := cancelInternal_QI b id hb ha
    exact ih _ h1 h2

/-- The book-level quantity invariant in terms of the per-side ones. -/
theorem quantInv_iff (b : OrderBook) :
    QuantInv b ↔ SideQI b.bids ∧ SideQI b.asks := by
  constructor
  · intro h
    constructor
    · intro pl hpl o ho
      exact h o (List.mem_append.mpr (Or.inl (by
        simp only [ordersOf, List.mem_flatten]
        exact ⟨pl.2, List.mem_map_of_mem _ hpl, ho⟩)))
    · intro pl hpl o ho
      exact h o (List.mem_append.mpr (Or.inr (by
        simp only [ordersOf, List.mem_flatten]
        exact ⟨pl.2, List.mem_map_of_mem _ hpl, ho⟩)))
  · intro ⟨h1, h2⟩ o ho
    rcases List.mem_append.mp ho with h | h
    · simp only [ordersOf, List.mem_flatten, List.mem_map] at h
      obtain ⟨lvl, ⟨pl, hpl, hlvl⟩, ho2⟩ := h
      exact h1 pl hpl o (hlvl ▸ ho2)
    · simp only [ordersOf, List.mem_flatten, List.mem_map] at h
      obtain ⟨lvl, ⟨pl, hpl, hlvl⟩, ho2⟩ := h
      exact h2 pl hpl o (hlvl ▸ ho2)

theorem frontConsume_trans (ts1 : List (Nat × Nat)) (inp mid : Level)
    (h1 : FrontConsume ts1 inp mid) :
    ∀ (ts2 : List (Nat × Nat)) (out : Level), FrontConsume ts2 mid out →
      FrontConsume (ts1 ++ ts2) inp out := by
  induction h1 with
  | nil q => intro ts2 out h2; simpa using h2
  | part o qty ts tail out1 hlt hrec ih =>
    intro ts2 out h2
    exact FrontConsume.part o qty _ tail out hlt (ih ts2 out h2)
  | full o ts tail out1 hrec ih =>
    intro ts2 out h2
    exact FrontConsume.full o _ tail out (ih ts2 out h2)

/-- Orders surviving a front-consumption are input orders, possibly with a
reduced remaining quantity on the head. -/
theorem frontConsume_out (ts : List (Nat × Nat)) (inp out : Level)
    (h : FrontConsume ts inp out) :
    ∀ o ∈ out, ∃ o' ∈ inp, o.type = o'.type ∧ o.id = o'.id ∧ o.side = o'.side ∧
      o.price = o'.price ∧ o.initialQuantity = o'.initialQuantity ∧
      o.remainingQuantity ≤ o'.remainingQuantity := by
  induction h with
  | nil q =>
    intro o ho
    exact ⟨o, ho, rfl, rfl, rfl, rfl, rfl, le_refl _⟩
  | part o0 qty ts tail out hlt hrec ih =>
    intro o ho
    obtain ⟨o', ho', h1, h2, h3, h4, h5, h6⟩ := ih o ho
    rcases List.mem_cons.mp ho' with he | he
    · subst he
      exact ⟨o0, List.mem_cons_self _ _, h1, h2, h3, h4, h5, by simp at h6 ⊢; omega⟩
    · exact ⟨o', List.mem_cons_of_mem _ he, h1, h2, h3, h4, h5, h6⟩
  | full o0 ts tail out hrec ih =>
    intro o ho
    obtain ⟨o', ho', hrest⟩ := ih o ho
    exact ⟨o', List.mem_cons_of_mem _ ho', hrest⟩

theorem consumedBestFirst_refl (inp : List (Int × Level)) :
    ConsumedBestFirst inp inp :=
  ⟨0, Or.inl rfl⟩

theorem consumedBestFirst_trans (inp mid out : List (Int × Level))
    (h1 : ConsumedBestFirst mid inp) (h2 : ConsumedBestFirst out mid) :
    ConsumedBestFirst out inp := by
  obtain ⟨n, hn⟩ := h1
  obtain ⟨m, hm⟩ := h2
  rcases hn with hn | ⟨p, lvl, lvl', rest, ts, hdrop, hfc, hmid⟩
  · subst hn
    rcases hm with hm | ⟨p, lvl, lvl', rest, ts, hdrop, hfc, hout⟩
    · exact ⟨n + m, Or.inl (by rw [hm, List.drop_drop])⟩
    · exact ⟨n + m, Or.inr ⟨p, lvl, lvl', rest, ts, by rw [← List.drop_drop, hdrop], hfc, hout⟩⟩
  · subst hmid
    rcases hm with hm | ⟨p2, lvl2, lvl2', rest2, ts2, hdrop2, hfc2, hout⟩
    · cases m with
      | zero =>
        simp only [List.drop_zero] at hm
        exact ⟨n, Or.inr ⟨p, lvl, lvl', rest, ts, hdrop, hfc, hm⟩⟩
      | succ k =>
        refine ⟨n + (k + 1), Or.inl ?_⟩
        rw [hm, List.drop_succ_cons, ← List.drop_drop, hdrop, List.drop_succ_cons]
    · cases m with
      | zero =>
        simp only [List.drop_zero] at hdrop2
        injection hdrop2 with he1 he2
        injection he1 with hp hl
        subst he2
        subst hp
        subst hl
        exact ⟨n, Or.inr ⟨p, lvl, lvl2', rest, ts ++ ts2, hdrop,
          frontConsume_trans ts lvl lvl' hfc ts2 lvl2' hfc2, hout⟩⟩
      | succ k =>
        refine ⟨n + (k + 1), Or.inr ⟨p2, lvl2, lvl2', rest2, ts2, ?_, hfc2, hout⟩⟩
        rw [← List.drop_drop, hdrop, List.drop_succ_cons]
        rw [List.drop_succ_cons] at hdrop2
        exact hdrop2

/-- The set of price levels only shrinks under best-first consumption. -/
theorem consumedBestFirst_prices (out inp : List (Int × Level))
    (h : ConsumedBestFirst out inp) :
    ∀ p ∈ out.map (·.1), p ∈ inp.map (·.1) := by
  obtain ⟨n, hn⟩ := h
  rcases hn with hn | ⟨p0, lvl, lvl', rest, ts, hdrop, hfc, hout⟩
  · subst hn
    intro p hp
    simp only [List.mem_map] at hp ⊢
    obtain ⟨pl, hpl, he⟩ := hp
    exact ⟨pl, List.mem_of_mem_drop hpl, he⟩
  · subst hout
    intro p hp
    simp only [List.map_cons, List.mem_cons] at hp
    rcases hp with hp | hp
    · have hmm : (p0, lvl) ∈ inp.drop n := hdrop ▸ List.mem_cons_self _ _
      have h3 := List.mem_map_of_mem (fun x : Int × Level => x.1) (List.mem_of_mem_drop hmm)
      simpa [hp] using h3
    · simp only [List.mem_map] at hp
      obtain ⟨pl, hpl, he⟩ := hp
      have hmem : pl ∈ inp.drop n := hdrop ▸ List.mem_cons_of_mem _ hpl
      exact he ▸ List.mem_map_of_mem _ (List.mem_of_mem_drop hmem)

/-- Orders surviving best-first consumption of a side are input orders,
possibly with a reduced remaining quantity. -/
theorem consumedBestFirst_out (out inp : List (Int × Level))
    (h : ConsumedBestFirst out inp) :
    ∀ o ∈ ordersOf out, ∃ o' ∈ ordersOf inp, o.type = o'.type ∧ o.id = o'.id ∧
      o.side = o'.side ∧ o.price = o'.price ∧
      o.initialQuantity = o'.initialQuantity ∧
      o.remainingQuantity ≤ o'.remainingQuantity := by
  obtain ⟨n, hn⟩ := h
  have hsub : ∀ (L : List (Int × Level)) (k : Nat), ∀ o ∈ ordersOf (L.drop k),
      o ∈ ordersOf L := by
    intro L k o ho
    simp only [ordersOf, List.mem_flatten, List.mem_map] at ho ⊢
    obtain ⟨lvl, ⟨pl, hpl, hlvl⟩, ho2⟩ := ho
    exact ⟨lvl, ⟨pl, List.mem_of_mem_drop hpl, hlvl⟩, ho2⟩
  rcases hn with hn | ⟨p0, lvl, lvl', rest, ts, hdrop, hfc, hout⟩
  · subst hn
    intro o ho
    exact ⟨o, hsub inp n o ho, rfl, rfl, rfl, rfl, rfl, le_refl _⟩
  · subst hout
    intro o ho
    simp only [ordersOf, List.map_cons, List.flatten_cons, List.mem_append] at ho
    rcases ho with ho | ho
    · obtain ⟨o', ho', hrest⟩ := frontConsume_out ts lvl lvl' hfc o ho
      refine ⟨o', ?_, hrest⟩
      apply hsub inp n
      rw [hdrop]
      simp only [ordersOf, List.map_cons, List.flatten_cons, List.mem_append]
      exact Or.inl ho'
    · refine ⟨o, ?_, rfl, rfl, rfl, rfl, rfl, le_refl _⟩
      apply hsub inp n
      rw [hdrop]
      simp only [ordersOf, List.map_cons, List.flatten_cons, List.mem_append]
      exact Or.inr ho

/-- The outer crossing loop consumes both sides best-level-first. -/
theorem matchOuter_consumed (fuel : Nat) (b : OrderBook) :
    ConsumedBestFirst (MatchOuter fuel b).book.bids b.bids ∧
      ConsumedBestFirst (MatchOuter fuel b).book.asks b.asks := by
  induction fuel generalizing b with
  | zero => exact ⟨consumedBestFirst_refl _, consumedBestFirst_refl _⟩
  | succ n ih =>
    obtain ⟨bids, asks, os, d⟩ := b
    cases bids with
    | nil => exact ⟨consumedBestFirst_refl _, consumedBestFirst_refl _⟩
    | cons hd tl =>
      obtain ⟨bp, bq⟩ := hd
      cases asks with
      | nil => exact ⟨consumedBestFirst_refl _, consumedBestFirst_refl _⟩
      | cons hd2 tl2 =>
        obtain ⟨ap, aq⟩ := hd2
        simp only [MatchOuter]
        split
        · exact ⟨consumedBestFirst_refl _, consumedBestFirst_refl _⟩
        · simp only [matchInner_no_panic, Bool.false_eq_true, if_false]
          have hbmid : ConsumedBestFirst
              (if (MatchInner bp ap bq aq os d).bidQ.isEmpty then tl
               else (bp, (MatchInner bp ap bq aq os d).bidQ) :: tl) ((bp, bq) :: tl) := by
            split
            · exact ⟨1, Or.inl rfl⟩
            · exact ⟨0, Or.inr ⟨bp, bq, (MatchInner bp ap bq aq os d).bidQ, tl, _,
                rfl, matchInner_bid_consume bp ap bq aq os d, rfl⟩⟩
          have hamid : ConsumedBestFirst
              (if (MatchInner bp ap bq aq os d).askQ.isEmpty then tl2
               else (ap, (MatchInner bp ap bq aq os d).askQ) :: tl2) ((ap, aq) :: tl2) := by
            split
            · exact ⟨1, Or.inl rfl⟩
            · exact ⟨0, Or.inr ⟨ap, aq, (MatchInner bp ap bq aq os d).askQ, tl2, _,
                rfl, matchInner_ask_consume bp ap bq aq os d, rfl⟩⟩
          obtain ⟨ihb, iha⟩ := ih _
          constructor
          · exact consumedBestFirst_trans _ _ _ hbmid (by exact ihb)
          · exact consumedBestFirst_trans _ _ _ hamid (by exact iha)

theorem chain_le_of_all_eq (l : List Int) (c : Int) (h : ∀ x ∈ l, x = c) :
    l.Chain' (· ≤ ·) := by
  induction l with
  | nil => exact List.chain'_nil
  | cons x rest ih =>
    rw [List.chain'_cons']
    refine ⟨?_, ih fun y hy => h y (List.mem_cons_of_mem _ hy)⟩
    intro y hy
    have hx := h x (List.mem_cons_self _ _)
    have hy2 := h y (List.mem_cons_of_mem _ (List.mem_of_mem_head? hy))
    omega

theorem chain_lt_head (a : Int) (l : List Int) (h : (a :: l).Chain' (· < ·)) :
    ∀ x ∈ l, a < x := by
  rw [List.chain'_iff_pairwise] at h
  exact (List.pairwise_cons.mp h).1

/-- Cross-price priority on the ask side: with a sorted ask book, the
trade stream sweeps ask levels in non-decreasing price order, and no trade
executes at a price above a level that still rests when the loop ends. -/
theorem matchOuter_ask_priority (fuel : Nat) (b : OrderBook)
    (hs : (b.asks.map (·.1)).Chain' (· < ·)) :
    ((MatchOuter fuel b).trades.map (·.ask.price)).Chain' (· ≤ ·) ∧
    (∀ t ∈ (MatchOuter fuel b).trades,
      ∀ pp ∈ (MatchOuter fuel b).book.asks.map (·.1), t.ask.price ≤ pp) := by
  induction fuel generalizing b with
  | zero => simp [MatchOuter]
  | succ n ih =>
    obtain ⟨bids, asks, os, d⟩ := b
    cases bids with
    | nil => simp [MatchOuter]
    | cons hd tl =>
      obtain ⟨bp, bq⟩ := hd
      cases asks with
      | nil => simp [MatchOuter]
      | cons hd2 tl2 =>
        obtain ⟨ap, aq⟩ := hd2
        simp only [MatchOuter]
        split
        · simp
        · simp only [matchInner_no_panic, Bool.false_eq_true, if_false]
          have hgt : ∀ x ∈ tl2.map (·.1), ap < x := by
            intro x hx
            exact chain_lt_head ap (tl2.map (·.1)) (by simpa using hs) x hx
          have hs2 : ((if (MatchInner bp ap bq aq os d).askQ.isEmpty then tl2
              else (ap, (MatchInner bp ap bq aq os d).askQ) :: tl2).map (·.1)).Chain'
                (· < ·) := by
            split
            · exact (by simpa using hs : (ap :: tl2.map (·.1)).Chain' (· < ·)).tail
            · simpa using hs
          have hrecmem : ∀ pr ∈ (if (MatchInner bp ap bq aq os d).askQ.isEmpty then tl2
              else (ap, (MatchInner bp ap bq aq os d).askQ) :: tl2).map (·.1),
              ap ≤ pr := by
            intro pr hpr
            by_cases he : (MatchInner bp ap bq aq os d).askQ.isEmpty
            · rw [if_pos he] at hpr
              exact le_of_lt (hgt pr hpr)
            · rw [if_neg he] at hpr
              simp only [List.map_cons, List.mem_cons] at hpr
              rcases hpr with hpr | hpr
              · omega
              · exact le_of_lt (hgt pr hpr)
          obtain ⟨ihc, ihb⟩ := ih ⟨if (MatchInner bp ap bq aq os d).bidQ.isEmpty then tl
              else (bp, (MatchInner bp ap bq aq os d).bidQ) :: tl,
            if (MatchInner bp ap bq aq os d).askQ.isEmpty then tl2
              else (ap, (MatchInner bp ap bq aq os d).askQ) :: tl2,
            (MatchInner bp ap bq aq os d).orders,
            if (MatchInner bp ap bq aq os d).askQ.isEmpty then
              mapErase ap (if (MatchInner bp ap bq aq os d).bidQ.isEmpty then
                mapErase bp (MatchInner bp ap bq aq os d).data
               else (MatchInner bp ap bq aq os d).data)
            else (if (MatchInner bp ap bq aq os d).bidQ.isEmpty then
                mapErase bp (MatchInner bp ap bq aq os d).data
               else (MatchInner bp ap bq aq os d).data)⟩ hs2
          have hstep : ∀ t ∈ (MatchInner bp ap bq aq os d).trades, t.ask.price = ap :=
            fun t ht => (matchInner_trade_prices bp ap bq aq os d t ht).2
          have hrecin : ∀ t ∈ (MatchOuter n
              ⟨if (MatchInner bp ap bq aq os d).bidQ.isEmpty then tl
                else (bp, (MatchInner bp ap bq aq os d).bidQ) :: tl,
               if (MatchInner bp ap bq aq os d).askQ.isEmpty then tl2
                else (ap, (MatchInner bp ap bq aq os d).askQ) :: tl2,
               (MatchInner bp ap bq aq os d).orders,
               if (MatchInner bp ap bq aq os d).askQ.isEmpty then
                 mapErase ap (if (MatchInner bp ap bq aq os d).bidQ.isEmpty then
                   mapErase bp (MatchInner bp ap bq aq os d).data
                  else (MatchInner bp ap bq aq os d).data)
               else (if (MatchInner bp ap bq aq os d).bidQ.isEmpty then
                   mapErase bp (MatchInner bp ap bq aq os d).data
                  else (MatchInner bp ap bq aq os d).data)⟩).trades,
              ap ≤ t.ask.price := by
            intro t ht
            have := matchOuter_trade_prices n _ t ht
            exact hrecmem _ (by exact this.2)
          constructor
          · dsimp only
            rw [List.map_append]
            apply List.Chain'.append
            · exact chain_le_of_all_eq _ ap (by
                intro x hx
                simp only [List.mem_map] at hx
                obtain ⟨t, ht, he⟩ := hx
                rw [← he]
                exact hstep t ht)
            · exact ihc
            · intro x hx y hy
              have hx2 : x = ap := by
                have := List.mem_of_mem_getLast? hx
                simp only [List.mem_map] at this
                obtain ⟨t, ht, he⟩ := this
                rw [← he]
                exact hstep t ht
              have hy2 : ap ≤ y := by
                have := List.mem_of_mem_head? hy
                simp only [List.mem_map] at this
                obtain ⟨t, ht, he⟩ := this
                rw [← he]
                exact hrecin t ht
              omega
          · dsimp only
            intro t ht pp hpp
            have hppmem : ap ≤ pp := by
              have hcons := (matchOuter_consumed n ⟨if (MatchInner bp ap bq aq os d).bidQ.isEmpty then tl
              else (bp, (MatchInner bp ap bq aq os d).bidQ) :: tl,
            if (MatchInner bp ap bq aq os d).askQ.isEmpty then tl2
              else (ap, (MatchInner bp ap bq aq os d).askQ) :: tl2,
            (MatchInner bp ap bq aq os d).orders,
            if (MatchInner bp ap bq aq os d).askQ.isEmpty then
              mapErase ap (if (MatchInner bp ap bq aq os d).bidQ.isEmpty then
                mapErase bp (MatchInner bp ap bq aq os d).data
               else (MatchInner bp ap bq aq os d).data)
            else (if (MatchInner bp ap bq aq os d).bidQ.isEmpty then
                mapErase bp (MatchInner bp ap bq aq os d).data
               else (MatchInner bp ap bq aq os d).data)⟩).2
              have hmem2 := consumedBestFirst_prices _ _ hcons pp hpp
              exact hrecmem pp hmem2
            rcases List.mem_append.mp ht with ht | ht
            · rw [hstep t ht]
              exact hppmem
            · exact ihb t ht pp hpp

theorem keyCount_pos_iff (os : OrdersMap) (id : Nat) :
    ordersContains os id = true ↔ 0 < keyCount os id := by
  rw [ordersContains, keyCount, List.any_eq_true, List.countP_pos]

theorem keyCount_zero_iff (os : OrdersMap) (id : Nat) :
    ordersContains os id = false ↔ keyCount os id = 0 := by
  rw [← Bool.not_eq_true, keyCount_pos_iff]
  omega

theorem keyCount_erase_self (os : OrdersMap) (id : Nat) :
    keyCount (ordersErase id os) id = keyCount os id - 1 := by
  induction os with
  | nil => rfl
  | cons e os ih =>
    simp only [keyCount, ordersErase] at ih ⊢
    by_cases he : (e.1 == id) = true
    · simp only [List.eraseP_cons, he, cond_true, List.countP_cons, if_true]
      omega
    · simp only [Bool.not_eq_true] at he
      simp only [List.eraseP_cons, he, cond_false, List.countP_cons,
        Bool.false_eq_true, if_false, Nat.add_zero]
      exact ih

theorem keyCount_erase_ne (os : OrdersMap) (k id : Nat) (h : k ≠ id) :
    keyCount (ordersErase k os) id = keyCount os id := by
  induction os with
  | nil => rfl
  | cons e os ih =>
    simp only [keyCount, ordersErase] at ih ⊢
    by_cases he : (e.1 == k) = true
    · have hid : (e.1 == id) = false := by
        simp only [beq_iff_eq] at he
        simp only [beq_eq_false_iff_ne]
        omega
      simp only [List.eraseP_cons, he, cond_true, List.countP_cons, hid,
        Bool.false_eq_true, if_false, Nat.add_zero]
    · simp only [Bool.not_eq_true] at he
      simp only [List.eraseP_cons, he, cond_false, List.countP_cons, ih]

theorem keyCount_erase_le (os : OrdersMap) (k id : Nat) :
    keyCount (ordersErase k os) id ≤ keyCount os id := by
  by_cases h : k = id
  · subst h
    rw [keyCount_erase_self]
    omega
  · rw [keyCount_erase_ne os k id h]

theorem ordersFind_erase_ne (os : OrdersMap) (k id : Nat) (h : k ≠ id) :
    ordersFind (ordersErase k os) id = ordersFind os id := by
  induction os with
  | nil => rfl
  | cons e os ih =>
    by_cases he : (e.1 == k) = true
    · simp only [ordersErase, List.eraseP_cons, he, cond_true]
      have hne : (e.1 == id) = false := by
        simp only [beq_iff_eq] at he
        simp only [beq_eq_false_iff_ne]
        omega
      simp only [ordersFind, List.find?, hne]
    · simp only [Bool.not_eq_true] at he
      simp only [ordersErase, List.eraseP_cons, he, cond_false]
      by_cases hid : (e.1 == id) = true
      · simp only [ordersFind, List.find?, hid]
      · simp only [Bool.not_eq_true] at hid
        simp only [ordersFind, List.find?, hid]
        exact ih

theorem keyCount_append_self (os : OrdersMap) (id : Nat) (e : OrdersEntry) :
    keyCount (os ++ [(id, e)]) id = keyCount os id + 1 := by
  simp [keyCount, List.countP_append]

theorem ordersFind_append_new (os : OrdersMap) (id : Nat) (e : OrdersEntry)
    (h : ordersContains os id = false) :
    ordersFind (os ++ [(id, e)]) id = some e := by
  simp only [ordersContains, List.any_eq_false] at h
  simp only [ordersFind, List.find?_append]
  rw [List.find?_eq_none.mpr h]
  simp [List.find?]

theorem matchInnerF_keyCount_le (bp ap : Int) (fuel : Nat) : ∀ (bq aq : Level)
    (os : OrdersMap) (d : DataMap) (id : Nat),
    keyCount (MatchInnerF bp ap fuel bq aq os d).orders id ≤ keyCount os id := by
  induction fuel with
  | zero =>
    intro bq aq os d id
    cases bq with
    | nil => rw [matchInnerF_nil_bq]
    | cons bid bq' =>
      cases aq with
      | nil => rw [matchInnerF_nil_aq]
      | cons ask aq' => exact le_refl _
  | succ n ih =>
    intro bq aq os d id
    cases bq with
    | nil => rw [matchInnerF_nil_bq]
    | cons bid bq' =>
      cases aq with
      | nil => rw [matchInnerF_nil_aq]
      | cons ask aq' =>
        rw [matchInnerF_cons]
        refine le_trans (ih _ _ _ _ id) ?_
        split
        · refine le_trans (keyCount_erase_le _ _ _) ?_
          split
          · exact keyCount_erase_le _ _ _
          · exact le_refl _
        · split
          · exact keyCount_erase_le _ _ _
          · exact le_refl _

/-- Tracking a lone order at the best bid level through the inner loop:
it either fully fills (and its id-lookup entry is erased) or survives as
the only order of its queue with a reduced remaining quantity (and its
id-lookup entry is untouched).  The ids resting on the opposite queue must
differ from its id, which the duplicate-id guard ensures. -/
theorem matchInnerF_single_bid (bp ap : Int) (fuel : Nat) : ∀ (fak : Order)
    (aq : Level) (os : OrdersMap) (d : DataMap),
    fak.id ∉ aq.map (·.id) →
    ((MatchInnerF bp ap fuel [fak] aq os d).bidQ = [] ∧
      keyCount (MatchInnerF bp ap fuel [fak] aq os d).orders fak.id =
        keyCount os fak.id - 1) ∨
    (∃ q, q ≤ fak.remainingQuantity ∧
      (MatchInnerF bp ap fuel [fak] aq os d).bidQ =
        [{ fak with remainingQuantity := fak.remainingQuantity - q }] ∧
      keyCount (MatchInnerF bp ap fuel [fak] aq os d).orders fak.id =
        keyCount os fak.id ∧
      ordersFind (MatchInnerF bp ap fuel [fak] aq os d).orders fak.id =
        ordersFind os fak.id) := by
  induction fuel with
  | zero =>
    intro fak aq os d h
    cases aq with
    | nil =>
      rw [matchInnerF_nil_aq]
      exact Or.inr ⟨0, Nat.zero_le _, rfl, rfl, rfl⟩
    | cons ask aq' =>
      exact Or.inr ⟨0, Nat.zero_le _, rfl, rfl, rfl⟩
  | succ n ih =>
    intro fak aq os d h
    cases aq with
    | nil =>
      rw [matchInnerF_nil_aq]
      exact Or.inr ⟨0, Nat.zero_le _, rfl, rfl, rfl⟩
    | cons ask aq' =>
      have hne : ask.id ≠ fak.id := by
        simp only [List.map_cons, List.mem_cons] at h
        intro hc
        exact h (Or.inl hc.symm)
      have htl : fak.id ∉ aq'.map (·.id) := by
        simp only [List.map_cons, List.mem_cons] at h
        intro hc
        exact h (Or.inr hc)
      rw [matchInnerF_cons]
      by_cases hfb : ({ fak with remainingQuantity :=
          fak.remainingQuantity - min fak.remainingQuantity ask.remainingQuantity } :
            Order).IsFilled = true
      · simp only [hfb, if_true]
        rw [matchInnerF_nil_bq]
        left
        refine ⟨rfl, ?_⟩
        split
        · rw [keyCount_erase_ne _ _ _ hne, keyCount_erase_self]
        · rw [keyCount_erase_self]
      · have hfbF : ({ fak with remainingQuantity :=
            fak.remainingQuantity - min fak.remainingQuantity ask.remainingQuantity } :
              Order).IsFilled = false := by
          simp only [Bool.not_eq_true] at hfb
          exact hfb
        have hlt : min fak.remainingQuantity ask.remainingQuantity <
            fak.remainingQuantity := by
          simp only [Order.IsFilled, beq_iff_eq] at hfb
          have := Nat.min_le_left fak.remainingQuantity ask.remainingQuantity
          omega
        have hfa : ({ ask with remainingQuantity :=
            ask.remainingQuantity - min fak.remainingQuantity ask.remainingQuantity } :
              Order).IsFilled = true := by
          simp only [Order.IsFilled, beq_iff_eq]
          have h2 := min_choice fak.remainingQuantity ask.remainingQuantity
          rcases h2 with h2 | h2 <;> rw [h2] <;> omega
        simp only [hfbF, hfa, Bool.false_eq_true, if_false, if_true]
        have ihr := ih { fak with remainingQuantity :=
            fak.remainingQuantity - min fak.remainingQuantity ask.remainingQuantity }
          aq' (ordersErase ask.id os)
          (OnOrderMatched ap (min fak.remainingQuantity ask.remainingQuantity) true
            (OnOrderMatched bp (min fak.remainingQuantity ask.remainingQuantity) false d))
          htl
        rcases ihr with ⟨h1, h2⟩ | ⟨q, hq, h1, h2, h3⟩
        · left
          refine ⟨h1, ?_⟩
          rw [h2, keyCount_erase_ne _ _ _ hne]
        · right
          have hq2 : q ≤ fak.remainingQuantity -
              min fak.remainingQuantity ask.remainingQuantity := hq
          refine ⟨min fak.remainingQuantity ask.remainingQuantity + q, by omega,
            ?_, ?_, ?_⟩
          · rw [h1]
            simp only [List.cons.injEq, and_true]
            rw [show fak.remainingQuantity -
                min fak.remainingQuantity ask.remainingQuantity - q =
              fak.remainingQuantity -
                (min fak.remainingQuantity ask.remainingQuantity + q) from
              Nat.sub_sub _ _ _]
          · rw [h2, keyCount_erase_ne _ _ _ hne]
          · rw [h3, ordersFind_erase_ne _ _ _ hne]

/-- The mirror image of `matchInnerF_single_bid` for a lone order at the
best ask level. -/
theorem matchInnerF_single_ask (bp ap : Int) (fuel : Nat) : ∀ (fak : Order)
    (bq : Level) (os : OrdersMap) (d : DataMap),
    fak.id ∉ bq.map (·.id) →
    ((MatchInnerF bp ap fuel bq [fak] os d).askQ = [] ∧
      keyCount (MatchInnerF bp ap fuel bq [fak] os d).orders fak.id =
        keyCount os fak.id - 1) ∨
    (∃ q, q ≤ fak.remainingQuantity ∧
      (MatchInnerF bp ap fuel bq [fak] os d).askQ =
        [{ fak with remainingQuantity := fak.remainingQuantity - q }] ∧
      keyCount (MatchInnerF bp ap fuel bq [fak] os d).orders fak.id =
        keyCount os fak.id ∧
      ordersFind (MatchInnerF bp ap fuel bq [fak] os d).orders fak.id =
        ordersFind os fak.id) := by
  induction fuel with
  | zero =>
    intro fak bq os d h
    cases bq with
    | nil =>
      rw [matchInnerF_nil_bq]
      exact Or.inr ⟨0, Nat.zero_le _, rfl, rfl, rfl⟩
    | cons bid bq' =>
      exact Or.inr ⟨0, Nat.zero_le _, rfl, rfl, rfl⟩
  | succ n ih =>
    intro fak bq os d h
    cases bq with
    | nil =>
      rw [matchInnerF_nil_bq]
      exact Or.inr ⟨0, Nat.zero_le _, rfl, rfl, rfl⟩
    | cons bid bq' =>
      have hne : bid.id ≠ fak.id := by
        simp only [List.map_cons, List.mem_cons] at h
        intro hc
        exact h (Or.inl hc.symm)
      have htl : fak.id ∉ bq'.map (·.id) := by
        simp only [List.map_cons, List.mem_cons] at h
        intro hc
        exact h (Or.inr hc)
      rw [matchInnerF_cons]
      by_cases hfa : ({ fak with remainingQuantity :=
          fak.remainingQuantity - min bid.remainingQuantity fak.remainingQuantity } :
            Order).IsFilled = true
      · simp only [hfa, if_true]
        rw [matchInnerF_nil_aq]
        left
        refine ⟨rfl, ?_⟩
        rw [keyCount_erase_self]
        split
        · rw [keyCount_erase_ne _ _ _ hne]
        · rfl
      · have hfaF : ({ fak with remainingQuantity :=
            fak.remainingQuantity - min bid.remainingQuantity fak.remainingQuantity } :
              Order).IsFilled = false := by
          simp only [Bool.not_eq_true] at hfa
          exact hfa
        have hlt : min bid.remainingQuantity fak.remainingQuantity <
            fak.remainingQuantity := by
          simp only [Order.IsFilled, beq_iff_eq] at hfa
          have := Nat.min_le_right bid.remainingQuantity fak.remainingQuantity
          omega
        have hfb : ({ bid with remainingQuantity :=
            bid.remainingQuantity - min bid.remainingQuantity fak.remainingQuantity } :
              Order).IsFilled = true := by
          simp only [Order.IsFilled, beq_iff_eq]
          have h2 := min_choice bid.remainingQuantity fak.remainingQuantity
          rcases h2 with h2 | h2 <;> rw [h2] <;> omega
        simp only [hfb, hfaF, Bool.false_eq_true, if_false, if_true]
        have ihr := ih { fak with remainingQuantity :=
            fak.remainingQuantity - min bid.remainingQuantity fak.remainingQuantity }
          bq' (ordersErase bid.id os)
          (OnOrderMatched ap (min bid.remainingQuantity fak.remainingQuantity) false
            (OnOrderMatched bp (min bid.remainingQuantity fak.remainingQuantity) true d))
          htl
        rcases ihr with ⟨h1, h2⟩ | ⟨q, hq, h1, h2, h3⟩
        · left
          refine ⟨h1, ?_⟩
          rw [h2, keyCount_erase_ne _ _ _ hne]
        · right
          have hq2 : q ≤ fak.remainingQuantity -
              min bid.remainingQuantity fak.remainingQuantity := hq
          refine ⟨min bid.remainingQuantity fak.remainingQuantity + q, by omega,
            ?_, ?_, ?_⟩
          · rw [h1]
            simp only [List.cons.injEq, and_true]
            rw [show fak.remainingQuantity -
                min bid.remainingQuantity fak.remainingQuantity - q =
              fak.remainingQuantity -
                (min bid.remainingQuantity fak.remainingQuantity + q) from
              Nat.sub_sub _ _ _]
          · rw [h2, keyCount_erase_ne _ _ _ hne]
          · rw [h3, ordersFind_erase_ne _ _ _ hne]

theorem idsOf_cons (p : Int) (lvl : Level) (rest : List (Int × Level)) :
    idsOf ((p, lvl) :: rest) = lvl.map (·.id) ++ idsOf rest := by
  simp [idsOf, ordersOf]

theorem matchInner_bidQ_ids (bp ap : Int) (bq aq : Level) (os : OrdersMap)
    (d : DataMap) :
    ∀ o ∈ (MatchInner bp ap bq aq os d).bidQ, o.id ∈ bq.map (·.id) := by
  intro o ho
  obtain ⟨o', ho', _, hid, _, _, _, _⟩ :=
    frontConsume_out _ _ _ (matchInner_bid_consume bp ap bq aq os d) o ho
  exact hid ▸ List.mem_map_of_mem _ ho'

theorem matchInner_askQ_ids (bp ap : Int) (bq aq : Level) (os : OrdersMap)
    (d : DataMap) :
    ∀ o ∈ (MatchInner bp ap bq aq os d).askQ, o.id ∈ aq.map (·.id) := by
  intro o ho
  obtain ⟨o', ho', _, hid, _, _, _, _⟩ :=
    frontConsume_out _ _ _ (matchInner_ask_consume bp ap bq aq os d) o ho
  exact hid ▸ List.mem_map_of_mem _ ho'

theorem matchInner_keyCount_le (bp ap : Int) (bq aq : Level) (os : OrdersMap)
    (d : DataMap) (id : Nat) :
    keyCount (MatchInner bp ap bq aq os d).orders id ≤ keyCount os id :=
  matchInnerF_keyCount_le bp ap _ bq aq os d id

theorem matchInner_single_bid (bp ap : Int) (fak : Order) (aq : Level)
    (os : OrdersMap) (d : DataMap) (h : fak.id ∉ aq.map (·.id)) :
    ((MatchInner bp ap [fak] aq os d).bidQ = [] ∧
      keyCount (MatchInner bp ap [fak] aq os d).orders fak.id =
        keyCount os fak.id - 1) ∨
    (∃ q, q ≤ fak.remainingQuantity ∧
      (MatchInner bp ap [fak] aq os d).bidQ =
        [{ fak with remainingQuantity := fak.remainingQuantity - q }] ∧
      keyCount (MatchInner bp ap [fak] aq os d).orders fak.id =
        keyCount os fak.id ∧
      ordersFind (MatchInner bp ap [fak] aq os d).orders fak.id =
        ordersFind os fak.id) :=
  matchInnerF_single_bid bp ap _ fak aq os d h

theorem matchInner_single_ask (bp ap : Int) (fak : Order) (bq : Level)
    (os : OrdersMap) (d : DataMap) (h : fak.id ∉ bq.map (·.id)) :
    ((MatchInner bp ap bq [fak] os d).askQ = [] ∧
      keyCount (MatchInner bp ap bq [fak] os d).orders fak.id =
        keyCount os fak.id - 1) ∨
    (∃ q, q ≤ fak.remainingQuantity ∧
      (MatchInner bp ap bq [fak] os d).askQ =
        [{ fak with remainingQuantity := fak.remainingQuantity - q }] ∧
      keyCount (MatchInner bp ap bq [fak] os d).orders fak.id =
        keyCount os fak.id ∧
      ordersFind (MatchInner bp ap bq [fak] os d).orders fak.id =
        ordersFind os fak.id) :=
  matchInnerF_single_ask bp ap _ fak bq os d h

/-- An id that is nowhere in the book stays nowhere through the outer
crossing loop: matching only ever removes orders. -/
theorem matchOuter_no_id (fuel : Nat) : ∀ (b : OrderBook) (id : Nat),
    keyCount b.orders id = 0 → id ∉ idsOf b.bids → id ∉ idsOf b.asks →
    keyCount (MatchOuter fuel b).book.orders id = 0 ∧
      id ∉ idsOf (MatchOuter fuel b).book.bids ∧
      id ∉ idsOf (MatchOuter fuel b).book.asks := by
  induction fuel with
  | zero => exact fun b id h1 h2 h3 => ⟨h1, h2, h3⟩
  | succ n ih =>
    intro b id h1 h2 h3
    obtain ⟨bids, asks, os, d⟩ := b
    cases bids with
    | nil => exact ⟨h1, h2, h3⟩
    | cons hd tl =>
      obtain ⟨bp, bq⟩ := hd
      cases asks with
      | nil => exact ⟨h1, h2, h3⟩
      | cons hd2 tl2 =>
        obtain ⟨ap, aq⟩ := hd2
        dsimp only at h1 h2 h3
        simp only [MatchOuter]
        split
        · exact ⟨h1, h2, h3⟩
        · simp only [matchInner_no_panic, Bool.false_eq_true, if_false]
          apply ih
          · dsimp only
            have := matchInner_keyCount_le bp ap bq aq os d id
            omega
          · dsimp only
            rw [idsOf_cons] at h2
            simp only [List.mem_append] at h2
            split
            · exact fun hc => h2 (Or.inr hc)
            · rw [idsOf_cons]
              simp only [List.mem_append]
              intro hc
              rcases hc with hc | hc
              · simp only [List.mem_map] at hc
                obtain ⟨o, ho, hid⟩ := hc
                have := matchInner_bidQ_ids bp ap bq aq os d o ho
                exact h2 (Or.inl (hid ▸ this))
              · exact h2 (Or.inr hc)
          · dsimp only
            rw [idsOf_cons] at h3
            simp only [List.mem_append] at h3
            split
            · exact fun hc => h3 (Or.inr hc)
            · rw [idsOf_cons]
              simp only [List.mem_append]
              intro hc
              rcases hc with hc | hc
              · simp only [List.mem_map] at hc
                obtain ⟨o, ho, hid⟩ := hc
                have := matchInner_askQ_ids bp ap bq aq os d o ho
                exact h3 (Or.inl (hid ▸ this))
              · exact h3 (Or.inr hc)

theorem order_sub_zero (o : Order) :
    ({ o with remainingQuantity := o.remainingQuantity - 0 } : Order) = o := by
  cases o
  simp

/-- Tracking a freshly inserted order that sits alone at the best bid
level through the outer crossing loop: it either fills completely and
vanishes from every index, or it survives as the sole order of the best
bid level with a reduced remaining quantity and untouched lookup entry. -/
theorem matchOuter_fak_bid (fuel : Nat) : ∀ (b : OrderBook) (p : Int)
    (fak : Order) (rest : List (Int × Level)),
    b.bids = (p, [fak]) :: rest →
    fak.id ∉ idsOf rest → fak.id ∉ idsOf b.asks → keyCount b.orders fak.id = 1 →
    (keyCount (MatchOuter fuel b).book.orders fak.id = 0 ∧
      fak.id ∉ idsOf (MatchOuter fuel b).book.bids ∧
      fak.id ∉ idsOf (MatchOuter fuel b).book.asks) ∨
    (∃ q, q ≤ fak.remainingQuantity ∧
      (MatchOuter fuel b).book.bids =
        (p, [{ fak with remainingQuantity := fak.remainingQuantity - q }]) :: rest ∧
      fak.id ∉ idsOf (MatchOuter fuel b).book.asks ∧
      keyCount (MatchOuter fuel b).book.orders fak.id = 1 ∧
      ordersFind (MatchOuter fuel b).book.orders fak.id =
        ordersFind b.orders fak.id) := by
  induction fuel with
  | zero =>
    intro b p fak rest hb h2 h3 h4
    exact Or.inr ⟨0, Nat.zero_le _,
      by simp only [MatchOuter]; rw [hb, order_sub_zero], h3, h4, rfl⟩
  | succ n ih =>
    intro b p fak rest hb h2 h3 h4
    obtain ⟨bids, asks, os, d⟩ := b
    dsimp only at hb h3 h4
    subst hb
    cases asks with
    | nil =>
      exact Or.inr ⟨0, Nat.zero_le _,
        by simp only [MatchOuter]; rw [order_sub_zero], h3, h4, rfl⟩
    | cons hd2 tl2 =>
      obtain ⟨ap, aq⟩ := hd2
      have h3' := h3
      rw [idsOf_cons] at h3'
      simp only [List.mem_append] at h3'
      have h3a : fak.id ∉ aq.map (·.id) := fun hc => h3' (Or.inl hc)
      have h3b : fak.id ∉ idsOf tl2 := fun hc => h3' (Or.inr hc)
      simp only [MatchOuter]
      split
      · exact Or.inr ⟨0, Nat.zero_le _, by rw [order_sub_zero], h3, h4, rfl⟩
      · simp only [matchInner_no_panic, Bool.false_eq_true, if_false]
        rcases matchInner_single_bid p ap fak aq os d h3a with
          ⟨hq1, hq2⟩ | ⟨q, hq, hq1, hq2, hq3⟩
        · have hempty : (MatchInner p ap [fak] aq os d).bidQ.isEmpty = true := by
            rw [hq1]
            rfl
          simp only [hempty, if_true]
          left
          apply matchOuter_no_id
          · dsimp only
            omega
          · exact h2
          · dsimp only
            split
            · exact h3b
            · rw [idsOf_cons]
              simp only [List.mem_append]
              intro hc
              rcases hc with hc | hc
              · simp only [List.mem_map] at hc
                obtain ⟨o, ho, hid⟩ := hc
                have := matchInner_askQ_ids p ap [fak] aq os d o ho
                exact h3a (hid ▸ this)
              · exact h3b hc
        · have hempty : (MatchInner p ap [fak] aq os d).bidQ.isEmpty = false := by
            rw [hq1]
            rfl
          simp only [hempty, Bool.false_eq_true, if_false]
          simp only [hq1]
          have hasks : ({ fak with remainingQuantity :=
              fak.remainingQuantity - q } : Order).id ∉ idsOf
              (if (MatchInner p ap [fak] aq os d).askQ.isEmpty then tl2
               else (ap, (MatchInner p ap [fak] aq os d).askQ) :: tl2) := by
            split
            · exact h3b
            · rw [idsOf_cons]
              simp only [List.mem_append]
              intro hc
              rcases hc with hc | hc
              · simp only [List.mem_map] at hc
                obtain ⟨o, ho, hid⟩ := hc
                have := matchInner_askQ_ids p ap [fak] aq os d o ho
                exact h3a (hid ▸ this)
              · exact h3b hc
          have hrec := ih ⟨(p, [{ fak with remainingQuantity :=
              fak.remainingQuantity - q }]) :: rest,
            if (MatchInner p ap [fak] aq os d).askQ.isEmpty then tl2
              else (ap, (MatchInner p ap [fak] aq os d).askQ) :: tl2,
            (MatchInner p ap [fak] aq os d).orders,
            if (MatchInner p ap [fak] aq os d).askQ.isEmpty then
              mapErase ap (MatchInner p ap [fak] aq os d).data
            else (MatchInner p ap [fak] aq os d).data⟩
            p { fak with remainingQuantity := fak.remainingQuantity - q } rest
            rfl h2 hasks (by dsimp only; omega)
          rcases hrec with ⟨k1, k2, k3⟩ | ⟨q2, hq2', k1, k2, k3, k4⟩
          · exact Or.inl ⟨k1, k2, k3⟩
          · right
            have hq2'' : q2 ≤ fak.remainingQuantity - q := hq2'
            refine ⟨q + q2, by omega, ?_, k2, k3, ?_⟩
            · rw [k1]
              simp only [List.cons.injEq, Prod.mk.injEq, true_and, and_true]
              rw [show fak.remainingQuantity - q - q2 =
                fak.remainingQuantity - (q + q2) from Nat.sub_sub _ _ _]
            · rw [k4]
              dsimp only
              exact hq3

/-- The mirror image of `matchOuter_fak_bid` for a lone order at the best
ask level. -/
theorem matchOuter_fak_ask (fuel : Nat) : ∀ (b : OrderBook) (p : Int)
    (fak : Order) (rest : List (Int × Level)),
    b.asks = (p, [fak]) :: rest →
    fak.id ∉ idsOf rest → fak.id ∉ idsOf b.bids → keyCount b.orders fak.id = 1 →
    (keyCount (MatchOuter fuel b).book.orders fak.id = 0 ∧
      fak.id ∉ idsOf (MatchOuter fuel b).book.bids ∧
      fak.id ∉ idsOf (MatchOuter fuel b).book.asks) ∨
    (∃ q, q ≤ fak.remainingQuantity ∧
      (MatchOuter fuel b).book.asks =
        (p, [{ fak with remainingQuantity := fak.remainingQuantity - q }]) :: rest ∧
      fak.id ∉ idsOf (MatchOuter fuel b).book.bids ∧
      keyCount (MatchOuter fuel b).book.orders fak.id = 1 ∧
      ordersFind (MatchOuter fuel b).book.orders fak.id =
        ordersFind b.orders fak.id) := by
  induction fuel with
  | zero =>
    intro b p fak rest hb h2 h3 h4
    exact Or.inr ⟨0, Nat.zero_le _,
      by simp only [MatchOuter]; rw [hb, order_sub_zero], h3, h4, rfl⟩
  | succ n ih =>
    intro b p fak rest hb h2 h3 h4
    obtain ⟨bids, asks, os, d⟩ := b
    dsimp only at hb h3 h4
    subst hb
    cases bids with
    | nil =>
      exact Or.inr ⟨0, Nat.zero_le _,
        by simp only [MatchOuter]; rw [order_sub_zero], h3, h4, rfl⟩
    | cons hd tl =>
      obtain ⟨bp, bq⟩ := hd
      have h3' := h3
      rw [idsOf_cons] at h3'
      simp only [List.mem_append] at h3'
      have h3a : fak.id ∉ bq.map (·.id) := fun hc => h3' (Or.inl hc)
      have h3b : fak.id ∉ idsOf tl := fun hc => h3' (Or.inr hc)
      simp only [MatchOuter]
      split
      · exact Or.inr ⟨0, Nat.zero_le _, by rw [order_sub_zero], h3, h4, rfl⟩
      · simp only [matchInner_no_panic, Bool.false_eq_true, if_false]
        rcases matchInner_single_ask bp p fak bq os d h3a with
          ⟨hq1, hq2⟩ | ⟨q, hq, hq1, hq2, hq3⟩
        · have hempty : (MatchInner bp p bq [fak] os d).askQ.isEmpty = true := by
            rw [hq1]
            rfl
          simp only [hempty, if_true]
          left
          apply matchOuter_no_id
          · dsimp only
            omega
          · dsimp only
            split
            · exact h3b
            · rw [idsOf_cons]
              simp only [List.mem_append]
              intro hc
              rcases hc with hc | hc
              · simp only [List.mem_map] at hc
                obtain ⟨o, ho, hid⟩ := hc
                have := matchInner_bidQ_ids bp p bq [fak] os d o ho
                exact h3a (hid ▸ this)
              · exact h3b hc
          · exact h2
        · have hempty : (MatchInner bp p bq [fak] os d).askQ.isEmpty = false := by
            rw [hq1]
            rfl
          simp only [hempty, Bool.false_eq_true, if_false]
          simp only [hq1]
          have hbids : ({ fak with remainingQuantity :=
              fak.remainingQuantity - q } : Order).id ∉ idsOf
              (if (MatchInner bp p bq [fak] os d).bidQ.isEmpty then tl
               else (bp, (MatchInner bp p bq [fak] os d).bidQ) :: tl) := by
            split
            · exact h3b
            · rw [idsOf_cons]
              simp only [List.mem_append]
              intro hc
              rcases hc with hc | hc
              · simp only [List.mem_map] at hc
                obtain ⟨o, ho, hid⟩ := hc
                have := matchInner_bidQ_ids bp p bq [fak] os d o ho
                exact h3a (hid ▸ this)
              · exact h3b hc
          have hrec := ih ⟨if (MatchInner bp p bq [fak] os d).bidQ.isEmpty then tl
              else (bp, (MatchInner bp p bq [fak] os d).bidQ) :: tl,
            (p, [{ fak with remainingQuantity :=
              fak.remainingQuantity - q }]) :: rest,
            (MatchInner bp p bq [fak] os d).orders,
            if (MatchInner bp p bq [fak] os d).bidQ.isEmpty then
              mapErase bp (MatchInner bp p bq [fak] os d).data
            else (MatchInner bp p bq [fak] os d).data⟩
            p { fak with remainingQuantity := fak.remainingQuantity - q } rest
            rfl h2 hbids (by dsimp only; omega)
          rcases hrec with ⟨k1, k2, k3⟩ | ⟨q2, hq2', k1, k2, k3, k4⟩
          · exact Or.inl ⟨k1, k2, k3⟩
          · right
            have hq2'' : q2 ≤ fak.remainingQuantity - q := hq2'
            refine ⟨q + q2, by omega, ?_, k2, k3, ?_⟩
            · rw [k1]
              simp only [List.cons.injEq, Prod.mk.injEq, true_and, and_true]
              rw [show fak.remainingQuantity - q - q2 =
                fak.remainingQuantity - (q + q2) from Nat.sub_sub _ _ _]
            · rw [k4]
              dsimp only
              exact hq3

theorem idsOf_mapErase (m : List (Int × Level)) (p : Int) :
    ∀ i ∈ idsOf (mapErase p m), i ∈ idsOf m := by
  induction m with
  | nil => intro i hi; cases hi
  | cons e rest ih =>
    obtain ⟨q, lvl⟩ := e
    intro i hi
    simp only [mapErase] at hi
    rw [idsOf_cons]
    simp only [List.mem_append]
    split at hi
    · exact Or.inr hi
    · rw [idsOf_cons] at hi
      simp only [List.mem_append] at hi
      rcases hi with hi | hi
      · exact Or.inl hi
      · exact Or.inr (ih i hi)

theorem idsOf_mapSet (m : List (Int × Level)) (p : Int) (x : Level) :
    ∀ i ∈ idsOf (mapSet p x m), i ∈ x.map (·.id) ∨ i ∈ idsOf m := by
  induction m with
  | nil =>
    intro i hi
    simp only [mapSet, idsOf, ordersOf, List.map_cons, List.map_nil,
      List.flatten, List.append_nil] at hi
    exact Or.inl hi
  | cons e rest ih =>
    obtain ⟨q, lvl⟩ := e
    intro i hi
    simp only [mapSet] at hi
    split at hi
    · rw [idsOf_cons] at hi
      rw [idsOf_cons]
      simp only [List.mem_append] at hi ⊢
      rcases hi with hi | hi
      · exact Or.inl hi
      · exact Or.inr (Or.inr hi)
    · rw [idsOf_cons] at hi
      rw [idsOf_cons]
      simp only [List.mem_append] at hi ⊢
      rcases hi with hi | hi
      · exact Or.inr (Or.inl hi)
      · rcases ih i hi with h | h
        · exact Or.inl h
        · exact Or.inr (Or.inr h)

theorem level_ids_sub (m : List (Int × Level)) (p : Int) (lvl : Level)
    (h : (p, lvl) ∈ m) : ∀ i ∈ lvl.map (·.id), i ∈ idsOf m := by
  intro i hi
  simp only [List.mem_map] at hi
  obtain ⟨o, ho, hid⟩ := hi
  simp only [idsOf, ordersOf, List.mem_map, List.mem_flatten]
  exact ⟨o, ⟨lvl, ⟨(p, lvl), h, rfl⟩, ho⟩, hid⟩

theorem eraseP_ids_sub (lvl : Level) (f : Order → Bool) :
    ∀ i ∈ (lvl.eraseP f).map (·.id), i ∈ lvl.map (·.id) := by
  intro i hi
  simp only [List.mem_map] at hi ⊢
  obtain ⟨o, ho, hid⟩ := hi
  exact ⟨o, (List.eraseP_sublist lvl).mem ho, hid⟩

/-- Canceling any id never introduces a foreign id anywhere. -/
theorem cancelInternal_no_id (b : OrderBook) (k id : Nat)
    (h1 : keyCount b.orders id = 0) (h2 : id ∉ idsOf b.bids)
    (h3 : id ∉ idsOf b.asks) :
    keyCount (b.CancelOrderInternal k).orders id = 0 ∧
      id ∉ idsOf (b.CancelOrderInternal k).bids ∧
      id ∉ idsOf (b.CancelOrderInternal k).asks := by
  have horders : keyCount (ordersErase k b.orders) id = 0 := by
    have := keyCount_erase_le b.orders k id
    omega
  unfold OrderBook.CancelOrderInternal
  cases h : ordersFind b.orders k with
  | none => exact ⟨h1, h2, h3⟩
  | some e =>
    obtain ⟨side, p, ty⟩ := e
    cases side <;> dsimp only
    · cases h4 : mapFind b.bids p with
      | none => exact ⟨horders, h2, h3⟩
      | some lvl =>
        dsimp only
        refine ⟨horders, ?_, h3⟩
        split
        · exact fun hc => h2 (idsOf_mapErase _ _ _ hc)
        · intro hc
          rcases idsOf_mapSet _ _ _ _ hc with hc | hc
          · exact h2 (level_ids_sub _ _ _ (mapFind_mem _ _ _ h4) _
              (eraseP_ids_sub _ _ _ hc))
          · exact h2 hc
    · cases h4 : mapFind b.asks p with
      | none => exact ⟨horders, h2, h3⟩
      | some lvl =>
        dsimp only
        refine ⟨horders, h2, ?_⟩
        split
        · exact fun hc => h3 (idsOf_mapErase _ _ _ hc)
        · intro hc
          rcases idsOf_mapSet _ _ _ _ hc with hc | hc
          · exact h3 (level_ids_sub _ _ _ (mapFind_mem _ _ _ h4) _
              (eraseP_ids_sub _ _ _ hc))
          · exact h3 hc

/-- The post-loop cleanup never introduces a foreign id anywhere. -/
theorem fakCleanup_no_id (b : OrderBook) (id : Nat)
    (h1 : keyCount b.orders id = 0) (h2 : id ∉ idsOf b.bids)
    (h3 : id ∉ idsOf b.asks) :
    keyCount (FakCleanup b).orders id = 0 ∧
      id ∉ idsOf (FakCleanup b).bids ∧ id ∉ idsOf (FakCleanup b).asks := by
  unfold FakCleanup CancelFakHeadBids CancelFakHeadAsks
  have step1 : ∀ c : OrderBook, keyCount c.orders id = 0 → id ∉ idsOf c.bids →
      id ∉ idsOf c.asks →
      keyCount (match c.asks with
        | (_, o :: _) :: _ =>
          if o.type == OrderType.FillAndKill then c.CancelOrderInternal o.id else c
        | _ => c).orders id = 0 ∧
      id ∉ idsOf (match c.asks with
        | (_, o :: _) :: _ =>
          if o.type == OrderType.FillAndKill then c.CancelOrderInternal o.id else c
        | _ => c).bids ∧
      id ∉ idsOf (match c.asks with
        | (_, o :: _) :: _ =>
          if o.type == OrderType.FillAndKill then c.CancelOrderInternal o.id else c
        | _ => c).asks := by
    intro c hc1 hc2 hc3
    split
    · split
      · exact cancelInternal_no_id _ _ _ hc1 hc2 hc3
      · exact ⟨hc1, hc2, hc3⟩
    · exact ⟨hc1, hc2, hc3⟩
  have step0 : keyCount (match b.bids with
      | (_, o :: _) :: _ =>
        if o.type == OrderType.FillAndKill then b.CancelOrderInternal o.id else b
      | _ => b).orders id = 0 ∧
      id ∉ idsOf (match b.bids with
        | (_, o :: _) :: _ =>
          if o.type == OrderType.FillAndKill then b.CancelOrderInternal o.id else b
        | _ => b).bids ∧
      id ∉ idsOf (match b.bids with
        | (_, o :: _) :: _ =>
          if o.type == OrderType.FillAndKill then b.CancelOrderInternal o.id else b
        | _ => b).asks := by
    split
    · split
      · exact cancelInternal_no_id _ _ _ h1 h2 h3
      · exact ⟨h1, h2, h3⟩
    · exact ⟨h1, h2, h3⟩
  exact step1 _ step0.1 step0.2.1 step0.2.2

/-- When a lookup entry says a lone-order level sits at the head of the
bid side, canceling that order pops the level and erases its entry. -/
theorem cancelInternal_single_buy (b : OrderBook) (p : Int) (fq : Order)
    (rest : List (Int × Level)) (ty : OrderType)
    (hb : b.bids = (p, [fq]) :: rest)
    (hfind : ordersFind b.orders fq.id = some (Side.Buy, p, ty)) :
    (b.CancelOrderInternal fq.id).bids = rest ∧
    (b.CancelOrderInternal fq.id).asks = b.asks ∧
    (b.CancelOrderInternal fq.id).orders = ordersErase fq.id b.orders := by
  unfold OrderBook.CancelOrderInternal
  rw [hfind]
  dsimp only
  rw [hb]
  have hmf : mapFind ((p, [fq]) :: rest) p = some [fq] := by
    simp [mapFind, List.find?]
  rw [hmf]
  have h1 : (([fq] : Level).eraseP (fun o => o.id == fq.id)) = [] := by
    simp [List.eraseP_cons]
  simp only [h1, List.isEmpty_nil, if_true, mapErase, beq_self_eq_true, if_pos]
  exact ⟨trivial, trivial, trivial⟩

/-- Mirror image of `cancelInternal_single_buy` on the ask side. -/
theorem cancelInternal_single_sell (b : OrderBook) (p : Int) (fq : Order)
    (rest : List (Int × Level)) (ty : OrderType)
    (ha : b.asks = (p, [fq]) :: rest)
    (hfind : ordersFind b.orders fq.id = some (Side.Sell, p, ty)) :
    (b.CancelOrderInternal fq.id).bids = b.bids ∧
    (b.CancelOrderInternal fq.id).asks = rest ∧
    (b.CancelOrderInternal fq.id).orders = ordersErase fq.id b.orders := by
  unfold OrderBook.CancelOrderInternal
  rw [hfind]
  dsimp only
  rw [ha]
  have hmf : mapFind ((p, [fq]) :: rest) p = some [fq] := by
    simp [mapFind, List.find?]
  rw [hmf]
  have h1 : (([fq] : Level).eraseP (fun o => o.id == fq.id)) = [] := by
    simp [List.eraseP_cons]
  simp only [h1, List.isEmpty_nil, if_true, mapErase, beq_self_eq_true, if_pos]
  exact ⟨trivial, trivial, trivial⟩

/-- The bid-side head cleanup is a no-op when no resting bid is a
`FillAndKill` order. -/
theorem cancelFakHeadBids_eq_self (b : OrderBook)
    (h : ∀ o ∈ ordersOf b.bids, o.type ≠ OrderType.FillAndKill) :
    CancelFakHeadBids b = b := by
  unfold CancelFakHeadBids
  split
  · next p o tail rest heq =>
    have ho : o ∈ ordersOf b.bids := by
      rw [heq]
      simp [ordersOf]
    have hne : (o.type == OrderType.FillAndKill) = false := by
      rw [beq_eq_false_iff_ne]
      exact h o ho
    simp only [hne, Bool.false_eq_true, if_false]
  · rfl

/-- The ask-side head cleanup is a no-op when no resting ask is a
`FillAndKill` order. -/
theorem cancelFakHeadAsks_eq_self (b : OrderBook)
    (h : ∀ o ∈ ordersOf b.asks, o.type ≠ OrderType.FillAndKill) :
    CancelFakHeadAsks b = b := by
  unfold CancelFakHeadAsks
  split
  · next p o tail rest heq =>
    have ho : o ∈ ordersOf b.asks := by
      rw [heq]
      simp [ordersOf]
    have hne : (o.type == OrderType.FillAndKill) = false := by
      rw [beq_eq_false_iff_ne]
      exact h o ho
    simp only [hne, Bool.false_eq_true, if_false]
  · rfl

/-- The ask-side head cleanup never introduces a foreign id. -/
theorem cancelFakHeadAsks_no_id (b : OrderBook) (id : Nat)
    (h1 : keyCount b.orders id = 0) (h2 : id ∉ idsOf b.bids)
    (h3 : id ∉ idsOf b.asks) :
    keyCount (CancelFakHeadAsks b).orders id = 0 ∧
      id ∉ idsOf (CancelFakHeadAsks b).bids ∧
      id ∉ idsOf (CancelFakHeadAsks b).asks := by
  unfold CancelFakHeadAsks
  split
  · split
    · exact cancelInternal_no_id _ _ _ h1 h2 h3
    · exact ⟨h1, h2, h3⟩
  · exact ⟨h1, h2, h3⟩

/-- A price strictly above every key of a descending bid map inserts a
fresh singleton level at the front. -/
theorem addLevelDesc_front (p : Int) (o : Order) (m : List (Int × Level))
    (h : ∀ q ∈ m.map (·.1), q < p) : addLevelDesc p o m = (p, [o]) :: m := by
  cases m with
  | nil => rfl
  | cons e rest =>
    obtain ⟨q, lvl⟩ := e
    have hq : p > q := h q (by simp)
    unfold addLevelDesc
    rw [if_pos hq]

/-- A price strictly below every key of an ascending ask map inserts a
fresh singleton level at the front. -/
theorem addLevelAsc_front (p : Int) (o : Order) (m : List (Int × Level))
    (h : ∀ q ∈ m.map (·.1), p < q) : addLevelAsc p o m = (p, [o]) :: m := by
  cases m with
  | nil => rfl
  | cons e rest =>
    obtain ⟨q, lvl⟩ := e
    have hq : p < q := h q (by simp)
    unfold addLevelAsc
    rw [if_pos hq]

/-- Non-market orders pass the conversion step unchanged. -/
theorem convertMarket_nonmarket (b : OrderBook) (o : Order)
    (h : o.type ≠ OrderType.Market) : b.ConvertMarket o = some o := by
  have hne : (o.type == OrderType.Market) = false := by
    rw [beq_eq_false_iff_ne]
    exact h
  simp [OrderBook.ConvertMarket, hne]

/-- A matchable buy faces a nonempty ask side whose best price it reaches. -/
theorem canMatch_buy_elim (b : OrderBook) (price : Int)
    (h : b.CanMatch Side.Buy price = true) :
    ∃ ap aq tl, b.asks = (ap, aq) :: tl ∧ ap ≤ price := by
  unfold OrderBook.CanMatch at h
  cases ha : b.asks with
  | nil => rw [ha] at h; cases h
  | cons e tl =>
    obtain ⟨ap, aq⟩ := e
    rw [ha] at h
    simp only [decide_eq_true_eq, ge_iff_le] at h
    exact ⟨ap, aq, tl, rfl, h⟩

/-- A matchable sell faces a nonempty bid side whose best price it reaches. -/
theorem canMatch_sell_elim (b : OrderBook) (price : Int)
    (h : b.CanMatch Side.Sell price = true) :
    ∃ bp bq tl, b.bids = (bp, bq) :: tl ∧ price ≤ bp := by
  unfold OrderBook.CanMatch at h
  cases hb : b.bids with
  | nil => rw [hb] at h; cases h
  | cons e tl =>
    obtain ⟨bp, bq⟩ := e
    rw [hb] at h
    simp only [decide_eq_true_eq] at h
    exact ⟨bp, bq, tl, rfl, h⟩

/-- An id absent from the lookup is absent from a side whose orders are
all registered in the lookup. -/
theorem not_mem_idsOf_of_not_contains (m : List (Int × Level)) (os : OrdersMap)
    (id : Nat) (hcl : ∀ o ∈ ordersOf m, ordersContains os o.id = true)
    (h : ordersContains os id = false) : id ∉ idsOf m := by
  intro hc
  simp only [idsOf, List.mem_map] at hc
  obtain ⟨o, ho, hid⟩ := hc
  have hco := hcl o ho
  rw [hid] at hco
  rw [hco] at h
  cases h

/-- A lone `FillAndKill` order at the best bid level never survives
`MatchOrders`: the post-loop cleanup cancels whatever the crossing loop
left of it. -/
theorem matchOrders_fak_bid (b : OrderBook) (p : Int) (fak : Order)
    (rest : List (Int × Level))
    (hb : b.bids = (p, [fak]) :: rest)
    (hty : fak.type = OrderType.FillAndKill)
    (h2 : fak.id ∉ idsOf rest) (h3 : fak.id ∉ idsOf b.asks)
    (h4 : keyCount b.orders fak.id = 1)
    (hfind : ordersFind b.orders fak.id =
      some (Side.Buy, p, OrderType.FillAndKill)) :
    ordersContains (b.MatchOrders).book.orders fak.id = false ∧
      fak.id ∉ idsOf (b.MatchOrders).book.bids ∧
      fak.id ∉ idsOf (b.MatchOrders).book.asks := by
  rw [matchOrders_book]
  rcases matchOuter_fak_bid (b.bids.length + b.asks.length + 1) b p fak rest
      hb h2 h3 h4 with ⟨k1, k2, k3⟩ | ⟨q, hq, k1, k2, k3, k4⟩
  · obtain ⟨c1, c2, c3⟩ := fakCleanup_no_id _ fak.id k1 k2 k3
    exact ⟨(keyCount_zero_iff _ _).mpr c1, c2, c3⟩
  · have hideq : ({ fak with remainingQuantity :=
        fak.remainingQuantity - q } : Order).id = fak.id := rfl
    have hfind1 : ordersFind
        (MatchOuter (b.bids.length + b.asks.length + 1) b).book.orders
        ({ fak with remainingQuantity :=
          fak.remainingQuantity - q } : Order).id =
        some (Side.Buy, p, OrderType.FillAndKill) := by
      rw [hideq, k4, hfind]
    obtain ⟨c1, c2, c3⟩ := cancelInternal_single_buy
      (MatchOuter (b.bids.length + b.asks.length + 1) b).book p
      { fak with remainingQuantity := fak.remainingQuantity - q } rest
      OrderType.FillAndKill k1 hfind1
    have hstep : CancelFakHeadBids
        (MatchOuter (b.bids.length + b.asks.length + 1) b).book =
        (MatchOuter (b.bids.length + b.asks.length + 1) b).book.CancelOrderInternal
          ({ fak with remainingQuantity :=
            fak.remainingQuantity - q } : Order).id := by
      unfold CancelFakHeadBids
      rw [k1]
      have htype : (({ fak with remainingQuantity :=
          fak.remainingQuantity - q } : Order).type ==
          OrderType.FillAndKill) = true := by
        simp [hty]
      simp only [htype, if_true]
    rw [hideq] at c1 c2 c3 hstep
    unfold FakCleanup
    rw [hstep]
    have hkey0 : keyCount
        ((MatchOuter (b.bids.length + b.asks.length + 1) b).book.CancelOrderInternal
          fak.id).orders fak.id = 0 := by
      rw [c3, keyCount_erase_self, k3]
    have hbids0 : fak.id ∉ idsOf
        ((MatchOuter (b.bids.length + b.asks.length + 1) b).book.CancelOrderInternal
          fak.id).bids := by
      rw [c1]
      exact h2
    have hasks0 : fak.id ∉ idsOf
        ((MatchOuter (b.bids.length + b.asks.length + 1) b).book.CancelOrderInternal
          fak.id).asks := by
      rw [c2]
      exact k2
    obtain ⟨d1, d2, d3⟩ := cancelFakHeadAsks_no_id _ fak.id hkey0 hbids0 hasks0
    exact ⟨(keyCount_zero_iff _ _).mpr d1, d2, d3⟩

/-- A lone `FillAndKill` order at the best ask level never survives
`MatchOrders`, provided no resting bid is itself `FillAndKill` (so the
bid-side cleanup, which runs first, is a no-op). -/
theorem matchOrders_fak_ask (b : OrderBook) (p : Int) (fak : Order)
    (rest : List (Int × Level))
    (ha : b.asks = (p, [fak]) :: rest)
    (hty : fak.type = OrderType.FillAndKill)
    (h2 : fak.id ∉ idsOf rest) (h3 : fak.id ∉ idsOf b.bids)
    (h4 : keyCount b.orders fak.id = 1)
    (hfind : ordersFind b.orders fak.id =
      some (Side.Sell, p, OrderType.FillAndKill))
    (hnofakb : ∀ x ∈ ordersOf b.bids, x.type ≠ OrderType.FillAndKill) :
    ordersContains (b.MatchOrders).book.orders fak.id = false ∧
      fak.id ∉ idsOf (b.MatchOrders).book.bids ∧
      fak.id ∉ idsOf (b.MatchOrders).book.asks := by
  rw [matchOrders_book]
  rcases matchOuter_fak_ask (b.bids.length + b.asks.length + 1) b p fak rest
      ha h2 h3 h4 with ⟨k1, k2, k3⟩ | ⟨q, hq, k1, k2, k3, k4⟩
  · obtain ⟨c1, c2, c3⟩ := fakCleanup_no_id _ fak.id k1 k2 k3
    exact ⟨(keyCount_zero_iff _ _).mpr c1, c2, c3⟩
  · have hideq : ({ fak with remainingQuantity :=
        fak.remainingQuantity - q } : Order).id = fak.id := rfl
    unfold FakCleanup
    have hbidsid : CancelFakHeadBids
        (MatchOuter (b.bids.length + b.asks.length + 1) b).book =
        (MatchOuter (b.bids.length + b.asks.length + 1) b).book := by
      apply cancelFakHeadBids_eq_self
      intro x hx
      obtain ⟨y, hy, hts, -⟩ := consumedBestFirst_out _ _
        (matchOuter_consumed (b.bids.length + b.asks.length + 1) b).1 x hx
      rw [hts]
      exact hnofakb y hy
    rw [hbidsid]
    have hfind1 : ordersFind
        (MatchOuter (b.bids.length + b.asks.length + 1) b).book.orders
        ({ fak with remainingQuantity :=
          fak.remainingQuantity - q } : Order).id =
        some (Side.Sell, p, OrderType.FillAndKill) := by
      rw [hideq, k4, hfind]
    obtain ⟨c1, c2, c3⟩ := cancelInternal_single_sell
      (MatchOuter (b.bids.length + b.asks.length + 1) b).book p
      { fak with remainingQuantity := fak.remainingQuantity - q } rest
      OrderType.FillAndKill k1 hfind1
    have hstep : CancelFakHeadAsks
        (MatchOuter (b.bids.length + b.asks.length + 1) b).book =
        (MatchOuter (b.bids.length + b.asks.length + 1) b).book.CancelOrderInternal
          ({ fak with remainingQuantity :=
            fak.remainingQuantity - q } : Order).id := by
      unfold CancelFakHeadAsks
      rw [k1]
      have htype : (({ fak with remainingQuantity :=
          fak.remainingQuantity - q } : Order).type ==
          OrderType.FillAndKill) = true := by
        simp [hty]
      simp only [htype, if_true]
    rw [hideq] at c1 c2 c3 hstep
    rw [hstep]
    refine ⟨?_, ?_, ?_⟩
    · apply (keyCount_zero_iff _ _).mpr
      rw [c3, keyCount_erase_self, k3]
    · rw [c1]
      exact k2
    · rw [c2]
      exact h2

/-- A `FillAndKill` order with a fresh id added through `AddOrder` never
rests: afterwards its id is absent from the lookup and from both sides of
the book.  (The hypothesis that no already-resting order is `FillAndKill`
is itself an invariant of the public API, by this very theorem.) -/
theorem addOrder_fak_never_rests (b : OrderBook) (o : Order)
    (hwf : BookWF b)
    (hnofak : ∀ x ∈ ordersOf b.bids ++ ordersOf b.asks,
      x.type ≠ OrderType.FillAndKill)
    (hty : o.type = OrderType.FillAndKill)
    (hfresh : ordersContains b.orders o.id = false) :
    ordersContains (b.AddOrder o).book.orders o.id = false ∧
      o.id ∉ idsOf (b.AddOrder o).book.bids ∧
      o.id ∉ idsOf (b.AddOrder o).book.asks := by
  obtain ⟨hsb, hsa, hne1, hne2, huncross, hclb, hcla⟩ := hwf
  have hnb : o.id ∉ idsOf b.bids := not_mem_idsOf_of_not_contains _ _ _ hclb hfresh
  have hna : o.id ∉ idsOf b.asks := not_mem_idsOf_of_not_contains _ _ _ hcla hfresh
  have hnofakb : ∀ x ∈ ordersOf b.bids, x.type ≠ OrderType.FillAndKill :=
    fun x hx => hnofak x (List.mem_append.mpr (Or.inl hx))
  have hkey1 : keyCount (b.orders ++ [(o.id, (o.side, o.price, o.type))]) o.id = 1 := by
    rw [keyCount_append_self, (keyCount_zero_iff _ _).mp hfresh]
  have hfind0 : ordersFind (b.orders ++ [(o.id, (o.side, o.price, o.type))]) o.id
      = some (o.side, o.price, o.type) := ordersFind_append_new _ _ _ hfresh
  unfold OrderBook.AddOrder
  rw [hfresh]
  simp only [Bool.false_eq_true, if_false]
  rw [convertMarket_nonmarket b o (by rw [hty]; intro hc; cases hc)]
  unfold OrderBook.InsertAndMatch
  cases hcm : b.CanMatch o.side o.price with
  | false =>
    have hcond : (o.type == OrderType.FillAndKill
        && !(b.CanMatch o.side o.price)) = true := by
      rw [hty, hcm]
      rfl
    simp only [hcond, if_true]
    exact ⟨hfresh, hnb, hna⟩
  | true =>
    have hcond : (o.type == OrderType.FillAndKill
        && !(b.CanMatch o.side o.price)) = false := by
      rw [hty, hcm]
      rfl
    have hcond2 : (o.type == OrderType.FillOrKill
        && !(b.CanFullyFill o.side o.price o.initialQuantity)) = false := by
      rw [hty]
      rfl
    simp only [hcond, hcond2, Bool.false_eq_true, if_false]
    cases hside : o.side with
    | Buy =>
      rw [hside] at hcm
      obtain ⟨ap, aq, tl, hasks, hap⟩ := canMatch_buy_elim b o.price hcm
      have hfront : addLevelDesc o.price o b.bids = (o.price, [o]) :: b.bids := by
        apply addLevelDesc_front
        intro qq hqq
        have hlt := huncross qq hqq ap (by rw [hasks]; simp)
        omega
      rw [hside, hty] at hkey1 hfind0
      rw [hty]
      simp only [show (Side.Buy == Side.Buy) = true from rfl,
        show (Side.Buy == Side.Sell) = false from rfl, if_true,
        Bool.false_eq_true, if_false, hfront]
      exact matchOrders_fak_bid
        ⟨(o.price, [o]) :: b.bids, b.asks,
          b.orders ++ [(o.id, (Side.Buy, o.price, OrderType.FillAndKill))],
          OnOrderAdded o.price o.initialQuantity b.data⟩
        o.price o b.bids rfl hty hnb hna hkey1 hfind0
    | Sell =>
      rw [hside] at hcm
      obtain ⟨bp, bq, tl, hbids, hbp⟩ := canMatch_sell_elim b o.price hcm
      have hfront : addLevelAsc o.price o b.asks = (o.price, [o]) :: b.asks := by
        apply addLevelAsc_front
        intro qq hqq
        have hlt := huncross bp (by rw [hbids]; simp) qq hqq
        omega
      rw [hside, hty] at hkey1 hfind0
      rw [hty]
      simp only [show (Side.Sell == Side.Buy) = false from rfl,
        show (Side.Sell == Side.Sell) = true from rfl, if_true,
        Bool.false_eq_true, if_false, hfront]
      exact matchOrders_fak_ask
        ⟨b.bids, (o.price, [o]) :: b.asks,
          b.orders ++ [(o.id, (Side.Sell, o.price, OrderType.FillAndKill))],
          OnOrderAdded o.price o.initialQuantity b.data⟩
        o.price o b.asks rfl hty hna hnb hkey1 hfind0 hnofakb

theorem exBook1_wf : BookWF exBook1 := by
  unfold BookWF
  have hb : exBook1.bids.map (·.1) = [100] := by decide
  have ha : exBook1.asks.map (·.1) = [] := by decide
  rw [hb, ha]
  exact ⟨by simp, by simp, by decide, by decide, by simp, by decide, by decide⟩

theorem exCrossBook_asks_sorted : (exCrossBook.asks.map (·.1)).Chain' (· < ·) := by
  rw [show exCrossBook.asks.map (·.1) = [99] from by decide]
  simp

theorem exBookAsks_bids_sorted : (exBookAsks.bids.map (·.1)).Chain' (· > ·) := by
  rw [show exBookAsks.bids.map (·.1) = [] from by decide]
  simp

theorem exBookAsks_asks_sorted : (exBookAsks.asks.map (·.1)).Chain' (· < ·) := by
  rw [show exBookAsks.asks.map (·.1) = [99, 101] from by decide]
  simp

/-- Claim C1: an `AddOrder` of a `FillOrKill` order rejects exactly when
the full initial quantity cannot be satisfied immediately at reachable
prices.  Refuted by a reachable state: `exBook2` is built from the empty
book by two public `AddOrder` calls and holds 5 units of remaining ask
liquidity at price 100, yet a `FillOrKill` buy of 5 at 100 is rejected
with an empty trade list and no state change, because `CanFullyFill`
reads availability from the (corrupted, empty) `data_` aggregate. -/
theorem C1_fok_all_or_nothing :
    totalRemaining exBook2.asks = 5 ∧
    exBook2.asks.map (·.1) = [100] ∧
    ordersContains exBook2.orders 2 = true ∧
    exBook2.CanFullyFill Side.Buy 100 5 = false ∧
    exBook2.AddOrder (Order.make OrderType.FillOrKill 3 Side.Buy 100 5) =
      ⟨[], exBook2, false⟩ := by
  decide

/-- Claim C2: every operation preserves mutual consistency of the
cross-referenced indexes; in particular every price holding resting orders
has a level aggregate entry carrying their count and total remaining
quantity.  Refuted by a reachable state: in `exBook2` (two public
`AddOrder` calls on the empty book) an order rests in the ask queue at
price 100 and is present in the id lookup, yet the `data_` aggregate holds
no entry at price 100 — `MatchOrders` erased it wholesale when the bid
queue at that shared price key emptied. -/
theorem C2_index_consistency :
    ordersOf exBook2.asks ≠ [] ∧
    (∀ o ∈ ordersOf exBook2.asks, o.price = 100 ∧
      ordersContains exBook2.orders o.id = true) ∧
    mapFind exBook2.data 100 = none := by
  decide

/-- Claim C3 (corrected): every trade emitted by the matching loop carries
one common execution price on both legs, but that price is always the ask
side's level price — not, as claimed, the resting order's price. -/
theorem C3_trade_price_always_ask (b : OrderBook) :
    ∀ t ∈ (b.MatchOrders).trades,
      t.bid.price = t.ask.price ∧ t.ask.price ∈ b.asks.map (·.1) := by
  rw [matchOrders_trades]
  exact matchOuter_trade_prices _ b

theorem C3_trade_price_always_ask_witness :
    (⟨⟨1, 99, 5⟩, ⟨2, 99, 5⟩⟩ : Trade) ∈ (exCrossBook.MatchOrders).trades ∧
      ((⟨⟨1, 99, 5⟩, ⟨2, 99, 5⟩⟩ : Trade).bid.price =
          (⟨⟨1, 99, 5⟩, ⟨2, 99, 5⟩⟩ : Trade).ask.price ∧
        (⟨⟨1, 99, 5⟩, ⟨2, 99, 5⟩⟩ : Trade).ask.price ∈
          exCrossBook.asks.map (·.1)) :=
  ⟨by decide, C3_trade_price_always_ask exCrossBook _ (by decide)⟩

/-- Counterexample to C3 as stated: a resting bid at 101 is hit by an
incoming sell at 99; the resting order's price is 101, yet both legs of
the emitted trade execute at 99 (the ask side's price — here the price
improvement goes to the resting order, not the incoming one). -/
theorem C3_counterexample :
    ordersOf exBookBid101.bids =
      [Order.make OrderType.GoodTillCancel 1 Side.Buy 101 5] ∧
    (exBookBid101.AddOrder
        (Order.make OrderType.GoodTillCancel 2 Side.Sell 99 5)).trades =
      [⟨⟨1, 99, 5⟩, ⟨2, 99, 5⟩⟩] := by
  decide

/-- Claim C4: matching obeys price-time priority.  Within one price level
the inner loop's trade events front-consume both queues (every fill hits
the current head order, which advances only on exhaustion, so a later
order never fills while an earlier one has remaining quantity); across
prices the outer loop consumes both sides best-level-first, and with a
sorted ask book the trade stream sweeps ask prices in non-decreasing
order, never executing above a price level that still rests when the loop
ends. -/
theorem C4_price_time_priority (b : OrderBook)
    (hs : (b.asks.map (·.1)).Chain' (· < ·)) :
    (∀ (bp ap : Int) (bq aq : Level) (os : OrdersMap) (d : DataMap),
      FrontConsume ((MatchInner bp ap bq aq os d).trades.map bidEvent) bq
        (MatchInner bp ap bq aq os d).bidQ ∧
      FrontConsume ((MatchInner bp ap bq aq os d).trades.map askEvent) aq
        (MatchInner bp ap bq aq os d).askQ) ∧
    ConsumedBestFirst
      (MatchOuter (b.bids.length + b.asks.length + 1) b).book.bids b.bids ∧
    ConsumedBestFirst
      (MatchOuter (b.bids.length + b.asks.length + 1) b).book.asks b.asks ∧
    ((b.MatchOrders).trades.map (·.ask.price)).Chain' (· ≤ ·) ∧
    (∀ t ∈ (b.MatchOrders).trades,
      ∀ pp ∈ (MatchOuter (b.bids.length + b.asks.length + 1) b).book.asks.map (·.1),
        t.ask.price ≤ pp) := by
  rw [matchOrders_trades]
  exact ⟨fun bp ap bq aq os d =>
      ⟨matchInner_bid_consume bp ap bq aq os d,
        matchInner_ask_consume bp ap bq aq os d⟩,
    (matchOuter_consumed _ b).1, (matchOuter_consumed _ b).2,
    (matchOuter_ask_priority _ b hs).1, (matchOuter_ask_priority _ b hs).2⟩

theorem C4_price_time_priority_witness :
    (exCrossBook.asks.map (·.1)).Chain' (· < ·) ∧
    ((∀ (bp ap : Int) (bq aq : Level) (os : OrdersMap) (d : DataMap),
      FrontConsume ((MatchInner bp ap bq aq os d).trades.map bidEvent) bq
        (MatchInner bp ap bq aq os d).bidQ ∧
      FrontConsume ((MatchInner bp ap bq aq os d).trades.map askEvent) aq
        (MatchInner bp ap bq aq os d).askQ) ∧
    ConsumedBestFirst
      (MatchOuter (exCrossBook.bids.length + exCrossBook.asks.length + 1)
        exCrossBook).book.bids exCrossBook.bids ∧
    ConsumedBestFirst
      (MatchOuter (exCrossBook.bids.length + exCrossBook.asks.length + 1)
        exCrossBook).book.asks exCrossBook.asks ∧
    ((exCrossBook.MatchOrders).trades.map (·.ask.price)).Chain' (· ≤ ·) ∧
    (∀ t ∈ (exCrossBook.MatchOrders).trades,
      ∀ pp ∈ (MatchOuter (exCrossBook.bids.length + exCrossBook.asks.length + 1)
          exCrossBook).book.asks.map (·.1),
        t.ask.price ≤ pp)) :=
  ⟨exCrossBook_asks_sorted, C4_price_time_priority exCrossBook exCrossBook_asks_sorted⟩

/-- Claim C5: a `FillAndKill` order never rests.  If no cross is possible
at its price the `AddOrder` call rejects it with an empty trade list and
no state change; and in every case, once `AddOrder` returns, the order's
id is absent from the id lookup (so it does not count in `Size`) and from
both sides' price queues — whether it filled fully, partially, or not at
all.  (The no-resting-`FillAndKill` hypothesis on the starting book is
itself maintained by this very theorem along any public-API run.) -/
theorem C5_fak_never_rests (b : OrderBook) (o : Order)
    (hwf : BookWF b)
    (hnofak : ∀ x ∈ ordersOf b.bids ++ ordersOf b.asks,
      x.type ≠ OrderType.FillAndKill)
    (hty : o.type = OrderType.FillAndKill)
    (hfresh : ordersContains b.orders o.id = false) :
    (b.CanMatch o.side o.price = false → b.AddOrder o = ⟨[], b, false⟩) ∧
    ordersContains (b.AddOrder o).book.orders o.id = false ∧
    o.id ∉ idsOf (b.AddOrder o).book.bids ∧
    o.id ∉ idsOf (b.AddOrder o).book.asks := by
  obtain ⟨hc1, hc2, hc3⟩ := addOrder_fak_never_rests b o hwf hnofak hty hfresh
  refine ⟨?_, hc1, hc2, hc3⟩
  intro hcm
  unfold OrderBook.AddOrder
  rw [hfresh]
  simp only [Bool.false_eq_true, if_false]
  rw [convertMarket_nonmarket b o (by rw [hty]; intro hc; cases hc)]
  unfold OrderBook.InsertAndMatch
  have hcond : (o.type == OrderType.FillAndKill
      && !(b.CanMatch o.side o.price)) = true := by
    rw [hty, hcm]
    rfl
  simp only [hcond, if_true]

theorem C5_fak_never_rests_witness :
    BookWF exBook1 ∧
    (∀ x ∈ ordersOf exBook1.bids ++ ordersOf exBook1.asks,
      x.type ≠ OrderType.FillAndKill) ∧
    (Order.make OrderType.FillAndKill 2 Side.Sell 100 3).type =
      OrderType.FillAndKill ∧
    ordersContains exBook1.orders
      (Order.make OrderType.FillAndKill 2 Side.Sell 100 3).id = false ∧
    ((exBook1.CanMatch (Order.make OrderType.FillAndKill 2 Side.Sell 100 3).side
        (Order.make OrderType.FillAndKill 2 Side.Sell 100 3).price = false →
      exBook1.AddOrder (Order.make OrderType.FillAndKill 2 Side.Sell 100 3) =
        ⟨[], exBook1, false⟩) ∧
    ordersContains
      (exBook1.AddOrder
        (Order.make OrderType.FillAndKill 2 Side.Sell 100 3)).book.orders
      (Order.make OrderType.FillAndKill 2 Side.Sell 100 3).id = false ∧
    (Order.make OrderType.FillAndKill 2 Side.Sell 100 3).id ∉
      idsOf (exBook1.AddOrder
        (Order.make OrderType.FillAndKill 2 Side.Sell 100 3)).book.bids ∧
    (Order.make OrderType.FillAndKill 2 Side.Sell 100 3).id ∉
      idsOf (exBook1.AddOrder
        (Order.make OrderType.FillAndKill 2 Side.Sell 100 3)).book.asks) :=
  ⟨exBook1_wf, by decide, rfl, by decide,
    C5_fak_never_rests exBook1 (Order.make OrderType.FillAndKill 2 Side.Sell 100 3)
      exBook1_wf (by decide) rfl (by decide)⟩

/-- Claim C6: a Market `AddOrder` against an empty opposite side is
rejected with an empty trade list and no effect; otherwise, before any
matching, it is converted to a `GoodTillCancel` order priced at the
opposite side's last (worst) resting level — which is the maximum ask
price / minimum bid price whenever that side is price-sorted — and then
enters the ordinary insert-and-match pipeline. -/
theorem C6_market_conversion (b : OrderBook) (o : Order)
    (hm : o.type = OrderType.Market)
    (hdup : ordersContains b.orders o.id = false) :
    (o.side = Side.Buy → b.asks = [] → b.AddOrder o = ⟨[], b, false⟩) ∧
    (o.side = Side.Sell → b.bids = [] → b.AddOrder o = ⟨[], b, false⟩) ∧
    (∀ p lvl, o.side = Side.Buy → b.asks.getLast? = some (p, lvl) →
      b.AddOrder o =
        b.InsertAndMatch { o with type := OrderType.GoodTillCancel, price := p } ∧
      ((b.asks.map (·.1)).Chain' (· < ·) → ∀ q ∈ b.asks.map (·.1), q ≤ p)) ∧
    (∀ p lvl, o.side = Side.Sell → b.bids.getLast? = some (p, lvl) →
      b.AddOrder o =
        b.InsertAndMatch { o with type := OrderType.GoodTillCancel, price := p } ∧
      ((b.bids.map (·.1)).Chain' (· > ·) → ∀ q ∈ b.bids.map (·.1), p ≤ q)) := by
  refine ⟨fun hs ha => market_buy_empty b o hm hs ha,
    fun hs hb => market_sell_empty b o hm hs hb,
    fun p lvl hs hl => ⟨market_buy_convert b o hm hs hdup p lvl hl,
      fun hc => getLast_max_asc b.asks p lvl hc hl⟩,
    fun p lvl hs hl => ⟨market_sell_convert b o hm hs hdup p lvl hl,
      fun hc => getLast_min_desc b.bids p lvl hc hl⟩⟩

theorem C6_market_conversion_witness :
    (Order.make OrderType.Market 3 Side.Buy 0 7).type = OrderType.Market ∧
    ordersContains exBookAsks.orders
      (Order.make OrderType.Market 3 Side.Buy 0 7).id = false ∧
    (((Order.make OrderType.Market 3 Side.Buy 0 7).side = Side.Buy →
      exBookAsks.asks = [] →
      exBookAsks.AddOrder (Order.make OrderType.Market 3 Side.Buy 0 7) =
        ⟨[], exBookAsks, false⟩) ∧
    ((Order.make OrderType.Market 3 Side.Buy 0 7).side = Side.Sell →
      exBookAsks.bids = [] →
      exBookAsks.AddOrder (Order.make OrderType.Market 3 Side.Buy 0 7) =
        ⟨[], exBookAsks, false⟩) ∧
    (∀ p lvl, (Order.make OrderType.Market 3 Side.Buy 0 7).side = Side.Buy →
      exBookAsks.asks.getLast? = some (p, lvl) →
      exBookAsks.AddOrder (Order.make OrderType.Market 3 Side.Buy 0 7) =
        exBookAsks.InsertAndMatch { Order.make OrderType.Market 3 Side.Buy 0 7 with
          type := OrderType.GoodTillCancel, price := p } ∧
      ((exBookAsks.asks.map (·.1)).Chain' (· < ·) →
        ∀ q ∈ exBookAsks.asks.map (·.1), q ≤ p)) ∧
    (∀ p lvl, (Order.make OrderType.Market 3 Side.Buy 0 7).side = Side.Sell →
      exBookAsks.bids.getLast? = some (p, lvl) →
      exBookAsks.AddOrder (Order.make OrderType.Market 3 Side.Buy 0 7) =
        exBookAsks.InsertAndMatch { Order.make OrderType.Market 3 Side.Buy 0 7 with
          type := OrderType.GoodTillCancel, price := p } ∧
      ((exBookAsks.bids.map (·.1)).Chain' (· > ·) →
        ∀ q ∈ exBookAsks.bids.map (·.1), p ≤ q))) :=
  ⟨rfl, by decide,
    C6_market_conversion exBookAsks (Order.make OrderType.Market 3 Side.Buy 0 7)
      rfl (by decide)⟩

/-- Claim C7 (corrected): `GetBidLevels`/`GetAskLevels` return up to
`depth` levels carrying the side's prices in priority order (descending
bids, ascending asks, inherited from the sorted sides) with each level's
total remaining quantity, and at unbounded depth the snapshot quantities
sum to the side's total remaining quantity — but the quantities are
computed by re-walking the order queues, not from the level aggregate. -/
theorem C7_level_snapshots (b : OrderBook) (depth : Nat)
    (hsb : (b.bids.map (·.1)).Chain' (· > ·))
    (hsa : (b.asks.map (·.1)).Chain' (· < ·))
    (hdb : b.bids.length ≤ depth) (hda : b.asks.length ≤ depth)
    (hqb : totalRemaining b.bids < 2 ^ 64)
    (hqa : totalRemaining b.asks < 2 ^ 64) :
    (b.GetBidLevels depth).length ≤ depth ∧
    (b.GetAskLevels depth).length ≤ depth ∧
    ((b.GetBidLevels depth).map (·.1)).Chain' (· > ·) ∧
    ((b.GetAskLevels depth).map (·.1)).Chain' (· < ·) ∧
    ((b.GetBidLevels depth).map (·.2)).sum = totalRemaining b.bids ∧
    ((b.GetAskLevels depth).map (·.2)).sum = totalRemaining b.asks := by
  refine ⟨?_, ?_, ?_, ?_, getBidLevels_sum b depth hdb hqb,
    getAskLevels_sum b depth hda hqa⟩
  · simp only [OrderBook.GetBidLevels, List.length_map, List.length_take]
    omega
  · simp only [OrderBook.GetAskLevels, List.length_map, List.length_take]
    omega
  · rw [getBidLevels_prices]
    exact hsb.take _
  · rw [getAskLevels_prices]
    exact hsa.take _

theorem C7_level_snapshots_witness :
    (exBookAsks.bids.map (·.1)).Chain' (· > ·) ∧
    (exBookAsks.asks.map (·.1)).Chain' (· < ·) ∧
    exBookAsks.bids.length ≤ 5 ∧ exBookAsks.asks.length ≤ 5 ∧
    totalRemaining exBookAsks.bids < 2 ^ 64 ∧
    totalRemaining exBookAsks.asks < 2 ^ 64 ∧
    ((exBookAsks.GetBidLevels 5).length ≤ 5 ∧
    (exBookAsks.GetAskLevels 5).length ≤ 5 ∧
    ((exBookAsks.GetBidLevels 5).map (·.1)).Chain' (· > ·) ∧
    ((exBookAsks.GetAskLevels 5).map (·.1)).Chain' (· < ·) ∧
    ((exBookAsks.GetBidLevels 5).map (·.2)).sum = totalRemaining exBookAsks.bids ∧
    ((exBookAsks.GetAskLevels 5).map (·.2)).sum = totalRemaining exBookAsks.asks) :=
  ⟨exBookAsks_bids_sorted, exBookAsks_asks_sorted, by decide, by decide,
    by decide, by decide,
    C7_level_snapshots exBookAsks 5 exBookAsks_bids_sorted exBookAsks_asks_sorted
      (by decide) (by decide) (by decide) (by decide)⟩

/-- Counterexample to C7 as stated: in the reachable state `exBook2` the
queue-walking `GetAskLevels` reports the true resting quantity 5 at price
100, while the aggregate-based reading the claim asserts (modelled by
`GetAskLevelsFromAggregate`) reports 0, because the `data_` entry was
erased — so the snapshot is not computed from the level aggregate. -/
theorem C7_counterexample :
    exBook2.GetAskLevels 5 = [(100, 5)] ∧
    exBook2.GetAskLevelsFromAggregate 5 = [(100, 0)] := by
  decide

/-- Claim C8: `Order::Fill` of more than the remaining quantity is a hard
failure (`none`, modelling the thrown exception) and nothing less is; the
matching loop always fills by the minimum of the two head orders'
remaining quantities, for which `Fill` always succeeds, so no public
operation ever reaches the failure; and the quantity invariant
`0 ≤ remaining ≤ initial` (the lower bound inherent to `Nat`) is preserved
by every public operation. -/
theorem C8_fill_hard_failure (b : OrderBook) (o ord : Order) (q : Nat)
    (mo : OrderModify) (id : Nat)
    (hq : QuantInv b) (hord : ord.remainingQuantity ≤ ord.initialQuantity) :
    (o.Fill q = none ↔ o.remainingQuantity < q) ∧
    (∀ bid ask : Order,
      bid.Fill (min bid.remainingQuantity ask.remainingQuantity) ≠ none ∧
      ask.Fill (min bid.remainingQuantity ask.remainingQuantity) ≠ none) ∧
    (b.AddOrder ord).panicked = false ∧
    (b.ModifyOrder mo).panicked = false ∧
    QuantInv (b.AddOrder ord).book ∧
    QuantInv (b.CancelOrder id) ∧
    QuantInv (b.ModifyOrder mo).book ∧
    QuantInv b.PruneGoodForDayOrders := by
  obtain ⟨h1, h2⟩ := (quantInv_iff b).mp hq
  refine ⟨?_, ?_, addOrder_no_panic b ord, modifyOrder_no_panic b mo, ?_, ?_, ?_, ?_⟩
  · constructor
    · intro hn
      by_contra hc
      rw [Order.Fill, if_neg (by omega)] at hn
      cases hn
    · intro hlt
      rw [Order.Fill, if_pos (by omega)]
  · intro bid ask
    constructor
    · rw [Fill_min_left bid ask]
      simp
    · rw [Fill_min_right bid ask]
      simp
  · exact (quantInv_iff _).mpr (addOrder_QI b ord hord h1 h2)
  · exact (quantInv_iff _).mpr (cancelInternal_QI b id h1 h2)
  · exact (quantInv_iff _).mpr (modifyOrder_QI b mo h1 h2)
  · exact (quantInv_iff _).mpr (prune_QI b h1 h2)

theorem C8_fill_hard_failure_witness :
    QuantInv exBook1 ∧
    (Order.make OrderType.GoodTillCancel 9 Side.Buy 50 2).remainingQuantity ≤
      (Order.make OrderType.GoodTillCancel 9 Side.Buy 50 2).initialQuantity ∧
    (((Order.make OrderType.GoodTillCancel 5 Side.Buy 10 4).Fill 7 = none ↔
      (Order.make OrderType.GoodTillCancel 5 Side.Buy 10 4).remainingQuantity < 7) ∧
    (∀ bid ask : Order,
      bid.Fill (min bid.remainingQuantity ask.remainingQuantity) ≠ none ∧
      ask.Fill (min bid.remainingQuantity ask.remainingQuantity) ≠ none) ∧
    (exBook1.AddOrder (Order.make OrderType.GoodTillCancel 9 Side.Buy 50 2)).panicked
      = false ∧
    (exBook1.ModifyOrder ⟨1, Side.Buy, 100, 3⟩).panicked = false ∧
    QuantInv (exBook1.AddOrder
      (Order.make OrderType.GoodTillCancel 9 Side.Buy 50 2)).book ∧
    QuantInv (exBook1.CancelOrder 1) ∧
    QuantInv (exBook1.ModifyOrder ⟨1, Side.Buy, 100, 3⟩).book ∧
    QuantInv exBook1.PruneGoodForDayOrders) :=
  ⟨by unfold QuantInv; decide, by decide,
    C8_fill_hard_failure exBook1 (Order.make OrderType.GoodTillCancel 5 Side.Buy 10 4)
      (Order.make OrderType.GoodTillCancel 9 Side.Buy 50 2) 7
      ⟨1, Side.Buy, 100, 3⟩ 1 (by unfold QuantInv; decide) (by decide)⟩

/-- Claim C9: caller misuse is a domain outcome, never an error.
`AddOrder` with an already-live id returns an empty trade list and an
unchanged book; `CancelOrder` of an unknown id is a no-op on the entire
state (hence alters neither `Size` nor the level snapshots) and cancel is
idempotent; `ModifyOrder` of an unknown id returns an empty trade list
with no state change; and none of these calls signals a failure. -/
theorem C9_misuse_is_domain (b : OrderBook) (o : Order) (id : Nat)
    (mo : OrderModify) (hnd : (b.orders.map (·.1)).Nodup) :
    (ordersContains b.orders o.id = true → b.AddOrder o = ⟨[], b, false⟩) ∧
    (ordersContains b.orders id = false → b.CancelOrder id = b) ∧
    (b.CancelOrder id).CancelOrder id = b.CancelOrder id ∧
    (ordersContains b.orders mo.orderId = false →
      b.ModifyOrder mo = ⟨[], b, false⟩) ∧
    (b.AddOrder o).panicked = false ∧
    (b.ModifyOrder mo).panicked = false :=
  ⟨addOrder_dup b o, cancelOrder_unknown b id, cancel_idempotent b id hnd,
    modifyOrder_unknown b mo, addOrder_no_panic b o, modifyOrder_no_panic b mo⟩

theorem C9_misuse_is_domain_witness :
    (exBook1.orders.map (·.1)).Nodup ∧
    ((ordersContains exBook1.orders
        (Order.make OrderType.GoodTillCancel 1 Side.Buy 100 5).id = true →
      exBook1.AddOrder (Order.make OrderType.GoodTillCancel 1 Side.Buy 100 5) =
        ⟨[], exBook1, false⟩) ∧
    (ordersContains exBook1.orders 42 = false → exBook1.CancelOrder 42 = exBook1) ∧
    (exBook1.CancelOrder 42).CancelOrder 42 = exBook1.CancelOrder 42 ∧
    (ordersContains exBook1.orders
        (⟨42, Side.Buy, 100, 3⟩ : OrderModify).orderId = false →
      exBook1.ModifyOrder ⟨42, Side.Buy, 100, 3⟩ = ⟨[], exBook1, false⟩) ∧
    (exBook1.AddOrder
      (Order.make OrderType.GoodTillCancel 1 Side.Buy 100 5)).panicked = false ∧
    (exBook1.ModifyOrder ⟨42, Side.Buy, 100, 3⟩).panicked = false) :=
  ⟨by decide,
    C9_misuse_is_domain exBook1 (Order.make OrderType.GoodTillCancel 1 Side.Buy 100 5)
      42 ⟨42, Side.Buy, 100, 3⟩ (by decide)⟩

end OBook